import Mathlib

/-!
# Verification of the quitch plan / change-identity / reconciler core

A shallow embedding of the quitch sources (`src/change.ts`, `src/plan.ts`,
`src/main.ts`) in Lean 4, together with theorems settling the frozen claims
about the natural-language specification.

JavaScript strings are modelled as `List Char` (Unicode scalar values).  All
string splits performed by the sources happen at single BMP characters
(`' '`, `'#'`, `'='`, `'\n'`), so UTF-16 code-unit indices and scalar-value
indices delimit the same decompositions; the UTF-8 encoder used for hashing
works on scalar values exactly as `TextEncoder` does.

JavaScript `Date` values are modelled as `Option Int`: `some t` is a date
holding `t` milliseconds since the Unix epoch, `none` is an Invalid Date
(`NaN` time value).
-/

namespace Quitch

instance {ε α : Type} [DecidableEq ε] [DecidableEq α] : DecidableEq (Except ε α)
  | .ok a, .ok b =>
    if h : a = b then isTrue (by rw [h]) else isFalse (fun hh => h (Except.ok.inj hh))
  | .ok _, .error _ => isFalse (fun hh => Except.noConfusion hh)
  | .error _, .ok _ => isFalse (fun hh => Except.noConfusion hh)
  | .error e, .error f =>
    if h : e = f then isTrue (by rw [h]) else isFalse (fun hh => h (Except.error.inj hh))

abbrev Str := List Char

/-! ## JS string primitives -/

/-- Code points stripped by `String.prototype.trim` (ECMA-262 `TrimString`):
WhiteSpace (TAB VT FF SP NBSP ZWNBSP and Unicode Space_Separator) and
LineTerminator (LF CR LS PS). -/
def js_ws_codes : List Nat :=
  [9, 10, 11, 12, 13, 32, 160, 5760, 8192, 8193, 8194, 8195, 8196, 8197,
   8198, 8199, 8200, 8201, 8202, 8232, 8233, 8239, 8287, 12288, 65279]

def js_ws (c : Char) : Bool := js_ws_codes.contains c.toNat

/-- `String.prototype.trimStart`. -/
def trimStart : Str → Str
  | [] => []
  | c :: r => if js_ws c then trimStart r else c :: r

/-- `String.prototype.trimEnd`. -/
def trimEnd (s : Str) : Str := (trimStart s.reverse).reverse

/-- `String.prototype.trim`. -/
def trim (s : Str) : Str := trimEnd (trimStart s)

/-- `String.prototype.indexOf` for a single-character needle, as an `Option`
(the source compares the result against `-1`). -/
def indexOf? (c : Char) : Str → Option Nat
  | [] => none
  | a :: r => if a = c then some 0 else (indexOf? c r).map (· + 1)

/-- `String.prototype.split("\n")`.  Always returns a non-empty list;
`splitNl [] = [[]]` just as `"".split("\n")` is `[""]`. -/
def splitNl : Str → List Str
  | [] => [[]]
  | c :: r =>
    if c = '\n' then [] :: splitNl r
    else
      match splitNl r with
      | [] => [[c]]
      | l :: ls => (c :: l) :: ls

/-- The string join with `"\n"` used by `Plan.format`. -/
def joinNl : List Str → Str
  | [] => []
  | [l] => l
  | l :: ls => l ++ '\n' :: joinNl ls

/-- `String.prototype.startsWith("%")`. -/
def startsWithPercent : Str → Bool
  | [] => false
  | c :: _ => c = '%'

/-- `note.replaceAll("\n", "\\n")` from `format_line`: the pattern is the
single character LF, so a structural scan is exact. -/
def escapeNote : Str → Str
  | [] => []
  | c :: r => if c = '\n' then '\\' :: 'n' :: escapeNote r else c :: escapeNote r

/-- `note.replaceAll("\\n", "\n")` from `parse_line`: left-to-right,
non-overlapping replacement of the two-character pattern `\n`. -/
def unescapeNote : Str → Str
  | [] => []
  | [c] => [c]
  | c :: rc :: rr =>
    if c = '\\' ∧ rc = 'n' then '\n' :: unescapeNote rr
    else c :: unescapeNote (rc :: rr)

/-- `true` iff the literal two-character sequence `\` `n` occurs, i.e. the
documented ambiguity of the note escaping. -/
def escClash : Str → Bool
  | [] => false
  | [_] => false
  | c :: rc :: rr => (c = '\\' && rc = 'n') || escClash (rc :: rr)

/-! ## Proleptic Gregorian calendar (ECMA-262 date arithmetic)

Years are restricted to `0 ≤ y < 10000`, the range `toISOString` prints in
the plain (non-expanded) `YYYY` form.  `day_number y m d` counts days from
`0000-01-01`; the Unix epoch `1970-01-01` is day `719528`. -/

def is_leap (y : Nat) : Bool := y % 4 == 0 && (y % 100 != 0 || y % 400 == 0)

def days_in_month (leap : Bool) (m : Nat) : Nat :=
  match m with
  | 2 => if leap then 29 else 28
  | 4 => 30 | 6 => 30 | 9 => 30 | 11 => 30
  | _ => 31

/-- Days in year `y` strictly before month `m` (`1 ≤ m ≤ 13`). -/
def days_before_month (leap : Bool) (m : Nat) : Nat :=
  (match m with
   | 1 => 0 | 2 => 31 | 3 => 59 | 4 => 90 | 5 => 120 | 6 => 151 | 7 => 181
   | 8 => 212 | 9 => 243 | 10 => 273 | 11 => 304 | 12 => 334 | _ => 365) +
  (if leap && decide (3 ≤ m) then 1 else 0)

/-- Days strictly before year `y`, counted from `0000-01-01` (year 0 is leap). -/
def days_before_year (y : Nat) : Nat :=
  365 * y + (y + 3) / 4 - (y + 99) / 100 + (y + 399) / 400

def day_number (y m d : Nat) : Nat :=
  days_before_year y + days_before_month (is_leap y) m + (d - 1)

/-- Milliseconds of the Unix epoch measured like `day_number`. -/
def epoch_day : Nat := 719528

/-- Day count of `10000-01-01`, the exclusive upper bound of the printable range. -/
def day_limit : Nat := 3652425

/-- Linear search for the year containing day `n`: the result `y` satisfies
`days_before_year y ≤ n < days_before_year (y+1)` whenever `n < day_limit`. -/
def yearSearch : Nat → Nat → Nat → Nat
  | 0, y, _ => y
  | f + 1, y, n => if days_before_year (y + 1) ≤ n then yearSearch f (y + 1) n else y

def year_of_day (n : Nat) : Nat := yearSearch 10000 0 n

/-- Splits a day offset within a year into (month, day-of-month − 1). -/
def monthSearch : Nat → Nat → Nat → Bool → Nat × Nat
  | 0, m, r, _ => (m, r)
  | f + 1, m, r, b =>
    if r < days_in_month b m then (m, r) else monthSearch f (m + 1) (r - days_in_month b m) b

def civil_month_day (b : Bool) (r : Nat) : Nat × Nat := monthSearch 11 1 r b

/-- Day number to Gregorian (year, month, day). -/
def civil_from_day (n : Nat) : Nat × Nat × Nat :=
  let y := year_of_day n
  let r := n - days_before_year y
  let md := civil_month_day (is_leap y) r
  (y, md.1, md.2 + 1)

def digitChar (n : Nat) : Char := Char.ofNat (48 + n % 10)

def pad2 (n : Nat) : Str := [digitChar (n / 10), digitChar n]

def pad3 (n : Nat) : Str := [digitChar (n / 100), digitChar (n / 10), digitChar n]

def pad4 (n : Nat) : Str := [digitChar (n / 1000), digitChar (n / 100), digitChar (n / 10), digitChar n]

/-- `Date.prototype.toISOString` for time values whose year lies in
`[0, 10000)` (the expanded `±YYYYYY` year form is not modelled; the callers
proved about are restricted to this range). -/
def to_iso_string (t : Int) : Str :=
  let n : Nat := (t / 86400000 + 719528).toNat
  let tod : Nat := (t % 86400000).toNat
  let c := civil_from_day n
  pad4 c.1 ++ '-' :: pad2 c.2.1 ++ '-' :: pad2 c.2.2 ++
    'T' :: pad2 (tod / 3600000) ++ ':' :: pad2 (tod / 60000 % 60) ++
    ':' :: pad2 (tod / 1000 % 60) ++ '.' :: pad3 (tod % 1000) ++ ['Z']

/-! ### `new Date(string)`: the ECMA-262 Date Time String Format

Modelled: `YYYY[-MM[-DD]][THH:mm[:ss[.sss]]][Z | ±HH:mm]`.  Date-only forms
are UTC.  Not modelled (unexercised by any theorem below): expanded years
`±YYYYYY`, the special hour `24:00`, engine-specific legacy fallback
formats, and the fact that an offset-less date-time is interpreted in the
host's local time zone (the model assumes a UTC host). -/

def digitVal? (c : Char) : Option Nat :=
  if 48 ≤ c.toNat ∧ c.toNat ≤ 57 then some (c.toNat - 48) else none

/-- Read exactly `k` decimal digits. -/
def readDigits : Nat → Nat → Str → Option (Nat × Str)
  | 0, acc, s => some (acc, s)
  | _ + 1, _, [] => none
  | k + 1, acc, c :: r =>
    match digitVal? c with
    | some d => readDigits k (acc * 10 + d) r
    | none => none

def expect (c : Char) : Str → Option Str
  | [] => none
  | a :: r => if a = c then some r else none

/-- `MakeDay`/`MakeTime`/`TimeClip` combined: field validation and the time
value.  The four-digit year bound keeps every value far inside the
`±8.64e15` clip range. -/
def js_date_of (y mo d hh mi ss ms : Nat) (offset_min : Int) : Option Int :=
  if 1 ≤ mo ∧ mo ≤ 12 ∧ 1 ≤ d ∧ d ≤ days_in_month (is_leap y) mo ∧
      hh ≤ 23 ∧ mi ≤ 59 ∧ ss ≤ 59 ∧ ms ≤ 999 then
    some (((day_number y mo d : Int) - 719528) * 86400000 +
      hh * 3600000 + mi * 60000 + ss * 1000 + ms - offset_min * 60000)
  else none

/-- Optional `:ss[.sss]` part; returns (seconds, milliseconds, rest). -/
def parseSec (s : Str) : Option (Nat × Nat × Str) :=
  match s with
  | [] => some (0, 0, s)
  | c :: r =>
    if c = ':' then
      match readDigits 2 0 r with
      | none => none
      | some (ss, r2) =>
        match r2 with
        | [] => some (ss, 0, r2)
        | c2 :: r3 =>
          if c2 = '.' then
            match readDigits 3 0 r3 with
            | none => none
            | some (ms, r4) => some (ss, ms, r4)
          else some (ss, 0, r2)
    else some (0, 0, s)

/-- Trailing time-zone designator; result is the offset in minutes. -/
def parseOffset (s : Str) : Option Int :=
  match s with
  | [] => some 0
  | c :: r =>
    if c = 'Z' ∧ r = [] then some 0
    else if c = '+' then do
      let (oh, r2) ← readDigits 2 0 r
      let r3 ← expect ':' r2
      let (om, r4) ← readDigits 2 0 r3
      if r4 = [] ∧ oh ≤ 23 ∧ om ≤ 59 then pure (oh * 60 + om) else none
    else if c = '-' then do
      let (oh, r2) ← readDigits 2 0 r
      let r3 ← expect ':' r2
      let (om, r4) ← readDigits 2 0 r3
      if r4 = [] ∧ oh ≤ 23 ∧ om ≤ 59 then pure (-(oh * 60 + om : Int)) else none
    else none

def parseTimePart (y mo d : Nat) (s : Str) : Option Int := do
  let (hh, r1) ← readDigits 2 0 s
  let r2 ← expect ':' r1
  let (mi, r3) ← readDigits 2 0 r2
  let (ss, ms, r4) ← parseSec r3
  let off ← parseOffset r4
  js_date_of y mo d hh mi ss ms off

/-- `DD` and the optional time part. -/
def parseDayPart (y mo : Nat) (s : Str) : Option Int :=
  (readDigits 2 0 s).bind fun p =>
    match p.2 with
    | [] => js_date_of y mo p.1 0 0 0 0 0
    | c3 :: r6 => if c3 = 'T' then parseTimePart y mo p.1 r6 else none

/-- `MM`, then `-DD` or the optional time part. -/
def parseMonthPart (y : Nat) (s : Str) : Option Int :=
  (readDigits 2 0 s).bind fun p =>
    match p.2 with
    | [] => js_date_of y p.1 1 0 0 0 0 0
    | c2 :: r4 =>
      if c2 = 'T' then parseTimePart y p.1 1 r4
      else if c2 = '-' then parseDayPart y p.1 r4
      else none

def js_parse_date (s : Str) : Option Int :=
  (readDigits 4 0 s).bind fun p =>
    match p.2 with
    | [] => js_date_of p.1 1 1 0 0 0 0 0
    | c1 :: r2 =>
      if c1 = 'T' then parseTimePart p.1 1 1 r2
      else if c1 = '-' then parseMonthPart p.1 r2
      else none

/-! ## UTF-8 and SHA-1 (`crypto.subtle.digest("SHA-1", ...)` and `TextEncoder`) -/

/-- UTF-8 encoding of one Unicode scalar value, as byte values.  `TextEncoder`
combines UTF-16 surrogate pairs back into scalar values, so encoding scalar
values directly is exact. -/
def utf8Char (c : Char) : List Nat :=
  let n := c.toNat
  if n < 128 then [n]
  else if n < 2048 then [192 + n / 64, 128 + n % 64]
  else if n < 65536 then [224 + n / 4096, 128 + n / 64 % 64, 128 + n % 64]
  else [240 + n / 262144, 128 + n / 4096 % 64, 128 + n / 64 % 64, 128 + n % 64]

def utf8 (s : Str) : List Nat := (s.map utf8Char).flatten

/-- Decimal rendering of a `Nat` (JS number-to-string for the frame length). -/
def decChars : Nat → Nat → Str
  | 0, _ => []
  | f + 1, n => if n < 10 then [digitChar n] else decChars f (n / 10) ++ [digitChar n]

def natToStr (n : Nat) : Str := decChars (n + 1) n

def rotl32 (k x : Nat) : Nat := ((x <<< k) ||| (x >>> (32 - k))) % 4294967296

def sha1_f (i b c d : Nat) : Nat :=
  if i < 20 then (b &&& c) ||| ((b ^^^ 4294967295) &&& d)
  else if i < 40 then b ^^^ c ^^^ d
  else if i < 60 then (b &&& c) ||| (b &&& d) ||| (c &&& d)
  else b ^^^ c ^^^ d

def sha1_k (i : Nat) : Nat :=
  if i < 20 then 1518500249
  else if i < 40 then 1859775393
  else if i < 60 then 2400959708
  else 3395469782

/-- Big-endian 32-bit words from bytes (length a multiple of 4 after padding). -/
def bytesToWords : List Nat → List Nat
  | a :: b :: c :: d :: rest => (a * 16777216 + b * 65536 + c * 256 + d) :: bytesToWords rest
  | _ => []

/-- Big-endian 64-bit length field. -/
def be8 (n : Nat) : List Nat :=
  [n / 72057594037927936 % 256, n / 281474976710656 % 256, n / 1099511627776 % 256,
   n / 4294967296 % 256, n / 16777216 % 256, n / 65536 % 256, n / 256 % 256, n % 256]

/-- Merkle–Damgård padding: `0x80`, zeros to 56 mod 64, 64-bit bit length. -/
def sha1_pad (msg : List Nat) : List Nat :=
  msg ++ 128 :: List.replicate ((119 - msg.length % 64) % 64) 0 ++ be8 (msg.length * 8)

/-- Message-schedule extension `w[i] = rotl1 (w[i-3] ^ w[i-8] ^ w[i-14] ^ w[i-16])`. -/
def sha1_extend : Nat → List Nat → List Nat
  | 0, w => w
  | f + 1, w =>
    let n := w.length
    sha1_extend f (w ++ [rotl32 1 (w.getD (n - 3) 0 ^^^ w.getD (n - 8) 0 ^^^
      w.getD (n - 14) 0 ^^^ w.getD (n - 16) 0)])

def sha1_block (h : List Nat) (ws16 : List Nat) : List Nat :=
  let w := sha1_extend 64 ws16
  let st := (List.zip (List.range 80) w).foldl
    (fun st p =>
      let t := (rotl32 5 st.1 + sha1_f p.1 st.2.1 st.2.2.1 st.2.2.2.1 + st.2.2.2.2 +
        sha1_k p.1 + p.2) % 4294967296
      (t, st.1, rotl32 30 st.2.1, st.2.2.1, st.2.2.2.1))
    (h.getD 0 0, h.getD 1 0, h.getD 2 0, h.getD 3 0, h.getD 4 0)
  [(h.getD 0 0 + st.1) % 4294967296, (h.getD 1 0 + st.2.1) % 4294967296,
   (h.getD 2 0 + st.2.2.1) % 4294967296, (h.getD 3 0 + st.2.2.2.1) % 4294967296,
   (h.getD 4 0 + st.2.2.2.2) % 4294967296]

def chunk16 : Nat → List Nat → List (List Nat)
  | 0, _ => []
  | _ + 1, [] => []
  | f + 1, ws => ws.take 16 :: chunk16 f (ws.drop 16)

/-- SHA-1 state after digesting `msg` (list of byte values): five 32-bit words. -/
def sha1 (msg : List Nat) : List Nat :=
  let ws := bytesToWords (sha1_pad msg)
  (chunk16 ws.length ws).foldl sha1_block
    [1732584193, 4023233417, 2562383102, 271733878, 3285377520]

def hexChar (n : Nat) : Char := if n < 10 then digitChar n else Char.ofNat (87 + n)

def wordHex (w : Nat) : Str :=
  [hexChar (w / 268435456 % 16), hexChar (w / 16777216 % 16), hexChar (w / 1048576 % 16),
   hexChar (w / 65536 % 16), hexChar (w / 4096 % 16), hexChar (w / 256 % 16),
   hexChar (w / 16 % 16), hexChar (w % 16)]

/-- 40 lowercase hex characters of the SHA-1 digest (the `b.toString(16).padStart(2,"0")`
rendering of `src/change.ts`). -/
def sha1_hex (msg : List Nat) : Str := ((sha1 msg).map wordHex).flatten

/-! ## `src/change.ts` -/

structure Change where
  name : Str
  note : Str
  date : Option Int
  planner : Str
deriving DecidableEq

/-- `format_line_date`: `date.toISOString().slice(0, 19) + "Z"`.  On an Invalid
Date `toISOString` throws a `RangeError`; that execution is modelled as `[]`
and every theorem touching it carries a validity hypothesis instead. -/
def format_line_date (d : Option Int) : Str :=
  match d with
  | some t => (to_iso_string t).take 19 ++ ['Z']
  | none => []

/-- `Change.format`: the canonical multi-line hashing record.  `if (parent)` is
JS truthiness, so an empty parent string also omits the `parent` line. -/
def Change.format (project : Str) (change : Change) (parent : Option Str) : Str :=
  "project ".data ++ project ++ '\n' ::
  ("change ".data ++ change.name ++ '\n' ::
  ((match parent with
    | some p => if p.isEmpty then [] else "parent ".data ++ p ++ ['\n']
    | none => []) ++
  ("planner ".data ++ change.planner ++ '\n' ::
  ("date ".data ++ format_line_date change.date ++ '\n' ::
  ('\n' :: change.note)))))

/-- `Change.id`: frame the canonical record as
`change <utf8-byte-length>\0<record>` and digest with SHA-1. -/
def Change.id (project : Str) (change : Change) (parent : Option Str) : Str :=
  let change_str := Change.format project change parent
  let len := (utf8 change_str).length
  sha1_hex (utf8 ("change ".data ++ natToStr len ++ Char.ofNat 0 :: change_str))

inductive ParseError where
  /-- `"Invalid change format: missing space after name"` -/
  | missingSpaceAfterName (line : Str)
  /-- `"Invalid change format: missing space after date"` -/
  | missingSpaceAfterDate (line : Str)
  /-- `"Invalid change format: invalid date format, expected ISO 8601 date string"`.
  Unreachable in the source: the `Date` constructor never throws, so the
  `try`/`catch` guarding it is dead code.  Kept for the spec's taxonomy. -/
  | invalidDate (line : Str)
  /-- `"Unsupported sqitch plan syntax"` from `Plan.parse`. -/
  | unsupportedVersion
deriving DecidableEq

/-- `Change.parse_line`. -/
def Change.parse_line (line : Str) : Except ParseError Change :=
  match indexOf? ' ' line with
  | none => .error (.missingSpaceAfterName line)
  | some name_end_idx =>
    let name := line.take name_end_idx
    let rest1 := trimStart (line.drop name_end_idx)
    match indexOf? ' ' rest1 with
    | none => .error (.missingSpaceAfterDate line)
    | some date_end_idx =>
      let date := js_parse_date (rest1.take date_end_idx)
      let rest2 := trimStart (rest1.drop date_end_idx)
      match indexOf? '#' rest2 with
      | none => .ok { name := name, note := [], date := date, planner := rest2 }
      | some author_end_idx =>
        .ok { name := name,
              note := unescapeNote (trim (rest2.drop (author_end_idx + 1))),
              date := date,
              planner := trim (rest2.take author_end_idx) }

/-- `Change.format_line`: `` `${name} ${date} ${planner} # ${note}` ``. -/
def Change.format_line (c : Change) : Str :=
  c.name ++ ' ' :: format_line_date c.date ++ ' ' :: c.planner ++ ' ' :: '#' :: ' ' :: escapeNote c.note

/-- `Change.example` from the source. -/
def Change.example : Change :=
  { name := "change_name".data,
    note := "A description of the change".data,
    date := js_parse_date "2024-03-07T03:19:34Z".data,
    planner := "Ruslan Fadeev <github@kinrany.dev>".data }

/-! ## `src/plan.ts` -/

structure Plan where
  project : Str
  changes : List Change
deriving DecidableEq

def version_marker : Str := "%syntax-version=1.0.0".data

/-- The `for (const line of change_lines)` loop of `Plan.parse`: first failure
aborts. -/
def parse_changes : List Str → Except ParseError (List Change)
  | [] => .ok []
  | l :: rest =>
    match Change.parse_line l with
    | .error e => .error e
    | .ok c => (parse_changes rest).map (c :: ·)

/-- `Plan.parse`.  `new Map(entries).get("project")` keeps the last entry for a
duplicated key, and `|| ""` turns both a missing key and an empty value into
the empty string. -/
def Plan.parse (plan_text : Str) : Except ParseError Plan :=
  let lines := splitNl plan_text
  if lines.headD [] ≠ version_marker then .error .unsupportedVersion
  else
    let meta_entries : List (Str × Str) :=
      (lines.filter startsWithPercent).map (fun line =>
        let l := trim (line.drop 1)
        match indexOf? '=' l with
        | none => (l, [])
        | some idx => (l.take idx, l.drop (idx + 1)))
    let project := ((meta_entries.reverse.find? (fun e => e.1 = "project".data)).map (·.2)).getD []
    let change_lines := (lines.filter (fun l => !startsWithPercent l)).filter (fun l => !(trim l).isEmpty)
    (parse_changes change_lines).map (fun changes => ⟨project, changes⟩)

/-- `Plan.format`. -/
def Plan.format (plan : Plan) : Str :=
  joinNl (["%syntax-version=1.0.0".data, "%project=".data ++ plan.project] ++
    [[]] ++ plan.changes.map Change.format_line) ++ ['\n']

structure FullChange extends Change where
  id : Str
  parent : Option Str
deriving DecidableEq

instance : Inhabited FullChange := ⟨⟨⟨[], [], none, []⟩, [], none⟩⟩

/-- The body of the `full_changes` generator: thread each computed id as the
next change's parent. -/
def full_changes_from (project : Str) (parent : Option Str) : List Change → List FullChange
  | [] => []
  | c :: cs =>
    let change_id := Change.id project c parent
    ⟨c, change_id, parent⟩ :: full_changes_from project (some change_id) cs

/-- `Plan.full_changes`, materialized (the generator yields exactly this list,
in this order). -/
def Plan.full_changes (plan : Plan) : List FullChange :=
  full_changes_from plan.project none plan.changes

/-! ## `src/registry.ts` and the reconciler of `src/main.ts` -/

/-- A row of the registry's `changes` table (`ChangeRow` in `src/registry.ts`). -/
structure ChangeRow where
  change_id : Str
  script_hash : Option Str
  /-- Name of the change -/
  change : Str
  project : Str
  note : Str
  committed_at : Option Int
  committer_name : Str
  committer_email : Str
  planned_at : Option Int
  planner_name : Str
  planner_email : Str
deriving DecidableEq

/-- JS `Map.prototype.set` semantics on an association list: update in place
for an existing key, append otherwise (insertion order is preserved). -/
def jsmap_set (m : List (Str × ChangeRow)) (k : Str) (v : ChangeRow) : List (Str × ChangeRow) :=
  match m with
  | [] => [(k, v)]
  | e :: rest => if e.1 = k then (k, v) :: rest else e :: jsmap_set rest k v

/-- `new Map(change_rows.map((c) => [c.change_id, c]))`. -/
def jsmap_of (rows : List ChangeRow) : List (Str × ChangeRow) :=
  rows.foldl (fun m r => jsmap_set m r.change_id r) []

/-- `Map.prototype.has`. -/
def jsmap_has (m : List (Str × ChangeRow)) (k : Str) : Bool :=
  m.any (fun e => e.1 = k)

/-- `Map.prototype.delete` (keys are unique by construction). -/
def jsmap_del (m : List (Str × ChangeRow)) (k : Str) : List (Str × ChangeRow) :=
  m.filter (fun e => e.1 ≠ k)

/-- The `for await (const change of Plan.full_changes(plan))` loop of
`validate_against_plan`: delete each deployed id, stop at the first id absent
from the map.  Returns the remaining map and the first undeployed change. -/
def validate_walk : List FullChange → List (Str × ChangeRow) → List (Str × ChangeRow) × Option FullChange
  | [], m => (m, none)
  | c :: cs, m =>
    if jsmap_has m c.id then validate_walk cs (jsmap_del m c.id)
    else (m, some c)

/-- The `"Found unknown changes"` error: the `(change_id, change-name)` pairs
enumerated in the thrown message, in map iteration order. -/
inductive ConsistencyError where
  | unknown_changes (entries : List (Str × Str))
deriving DecidableEq

/-- `validate_against_plan` (`src/main.ts`): the registry rows are the result
of `select * from changes`, passed in as data. -/
def validate_against_plan (rows : List ChangeRow) (plan : Plan) :
    Except ConsistencyError (Option FullChange) :=
  let walked := validate_walk plan.full_changes (jsmap_of rows)
  if walked.1.isEmpty then .ok walked.2
  else .error (.unknown_changes (walked.1.map (fun e => (e.1, e.2.change))))

/-! ## The revert command of `src/main.ts` -/

inductive RevertError where
  /-- `"Nothing to revert"` (exit 1). -/
  | nothingToRevert
  /-- `"Panic! Invalid parent ID on change: ..."`. -/
  | panicInvalidParent (c : FullChange)
  /-- `"Panic! Last deployed change not found"`. -/
  | panicLastDeployedNotFound
deriving DecidableEq

/-- Selection of the change to revert: `last_deployed_change_id` is the first
undeployed change's parent, or the last materialized id when everything is
deployed; a missing (or empty — JS truthiness) id aborts with
`"Nothing to revert"`, and the id is then located by a second walk of
`full_changes`. -/
def select_revert_target (plan : Plan) (first_undeployed : Option FullChange) :
    Except RevertError FullChange :=
  let last_deployed_change_id : Option Str :=
    match first_undeployed with
    | some c => c.parent
    | none => (plan.full_changes.getLast?).map FullChange.id
  match last_deployed_change_id with
  | none => .error .nothingToRevert
  | some lid =>
    if lid.isEmpty then .error .nothingToRevert
    else
      match plan.full_changes.find? (fun c => c.id = lid) with
      | some c => .ok c
      | none =>
        match first_undeployed with
        | some c => .error (.panicInvalidParent c)
        | none => .error .panicLastDeployedNotFound

/-- Observable effects of the revert execution block, in program order. -/
inductive RevertEffect where
  /-- `db.useConnection(execute_multiple_statements(revert_sql))` -/
  | run_script (sql : Str)
  /-- `` registry.execute("delete from `changes` where change_id = ?") `` -/
  | delete_change_row (change_id : Str)
  /-- `log_registry_event(kind, registry, change, project)` -/
  | log_event (kind : Str) (change_id : Str)
deriving DecidableEq

/-- The `try`/`catch` block executing the revert: the script runs first; only
after it succeeds is the registry row deleted and a `"revert"` event logged;
if it throws, only a `"fail"` event is logged and the error is surfaced
(`Deno.exit(1)` after `console.error`).  `script_fails` abstracts the outcome
of the external SQL execution; the registry operations themselves are modelled
as succeeding.  Returns the effect trace and whether the error was surfaced. -/
def revert_execute (target : FullChange) (revert_sql : Str) (script_fails : Bool) :
    List RevertEffect × Bool :=
  if script_fails then
    ([.run_script revert_sql, .log_event "fail".data target.id], true)
  else
    ([.run_script revert_sql, .delete_change_row target.id,
      .log_event "revert".data target.id], false)

/-- `true` on the effects that mutate or append to the registry. -/
def RevertEffect.touches_registry : RevertEffect → Bool
  | .run_script _ => false
  | .delete_change_row _ => true
  | .log_event _ _ => true

/-! ## Spec-side definitions (used only to state claims) -/

/-- Truncation of a time value to whole seconds, the loss the spec grants the
plan round-trip (`toISOString().slice(0, 19)` drops `.sss`). -/
def truncate_ms (t : Int) : Int := t - t % 1000

def truncChange (c : Change) : Change := { c with date := c.date.map truncate_ms }

def truncPlan (p : Plan) : Plan := { p with changes := p.changes.map truncChange }

/-- A time value whose year `toISOString` can print as four digits. -/
def date_ok : Option Int → Prop
  | some t => -62167219200000 ≤ t ∧ t < 253402300800000
  | none => False

instance : ∀ d, Decidable (date_ok d)
  | some _ => inferInstanceAs (Decidable (_ ∧ _))
  | none => inferInstanceAs (Decidable False)

/-- Well-formedness of a change for the plan-document round-trip: the name
fits in the first field, the date is a representable instant, the planner and
note carry no surrounding whitespace and no delimiter collisions, and the note
avoids the documented `\`+`n` escaping ambiguity. -/
def WfChange (c : Change) : Prop :=
  ' ' ∉ c.name ∧ '\n' ∉ c.name ∧ c.name.head? ≠ some '%' ∧
  date_ok c.date ∧
  '#' ∉ c.planner ∧ '\n' ∉ c.planner ∧
  trimStart c.planner = c.planner ∧ trimEnd c.planner = c.planner ∧
  trimStart c.note = c.note ∧ trimEnd c.note = c.note ∧
  escClash c.note = false

instance (c : Change) : Decidable (WfChange c) := by
  unfold WfChange; infer_instance

/-- Well-formedness of a plan for the document round-trip. -/
def WfPlan (p : Plan) : Prop :=
  '\n' ∉ p.project ∧ trimEnd p.project = p.project ∧ ∀ c ∈ p.changes, WfChange c

instance (p : Plan) : Decidable (WfPlan p) := by
  unfold WfPlan; infer_instance

/-- All dates of a plan are valid, representable instants — on any other plan
the JS `full_changes` generator throws a `RangeError` from `toISOString`
instead of yielding, so only such plans have the materialized semantics. -/
def dates_ok (p : Plan) : Prop := ∀ c ∈ p.changes, date_ok c.date

instance (p : Plan) : Decidable (dates_ok p) := by
  unfold dates_ok; infer_instance

/-- The multi-byte emoji note of the repo's unicode digest test: the sequence
U+1F926 U+1F3FC U+200D U+2642 U+FE0F (facepalm, skin tone, ZWJ, male sign,
variation selector) — 5 scalar values, 17 UTF-8 bytes. -/
def emoji_note : Str :=
  [Char.ofNat 129318, Char.ofNat 127996, Char.ofNat 8205, Char.ofNat 9794, Char.ofNat 65039]

/-- A small concrete plan used to instantiate the universally quantified
theorems below. -/
def wit_plan : Plan :=
  ⟨"p".data,
   [{ name := "a".data, note := [], date := some 0, planner := "x".data },
    { name := "b".data, note := [], date := some 0, planner := "y".data }]⟩

/-- A registry row holding a given change id and name (remaining columns are
irrelevant to the reconciler). -/
def row_of (cid cname : Str) : ChangeRow :=
  ⟨cid, none, cname, "p".data, [], none, [], [], none, [], []⟩

end Quitch

/-! # Theorems -/

namespace Quitch

set_option maxRecDepth 40000

/-- C1: the change-identity function on project `"quitch"` and the example
change (name `change_name`, date 2024-03-07T03:19:34Z, planner
`Ruslan Fadeev <github@kinrany.dev>`, note `A description of the change`)
returns `da41a550b0cba5bd3dffbf645032a98ae1136da5` with no parent and
`7b6b9ba12694a34a5445e1d847d36d2344d61bcb` with that id as parent; with the
note replaced by the 5-scalar emoji sequence and no parent it returns
`fb29c4f840ce9cd266d983a2c90d7ddf745c1711`, the frame length counting the 17
UTF-8 bytes of the note rather than its 5 characters, the framed bytes being
digested with SHA-1 and rendered as 40 lowercase hex characters. -/
theorem claim1_change_id_known_vectors :
    Change.id "quitch".data Change.example none =
      "da41a550b0cba5bd3dffbf645032a98ae1136da5".data ∧
    Change.id "quitch".data Change.example
        (some "da41a550b0cba5bd3dffbf645032a98ae1136da5".data) =
      "7b6b9ba12694a34a5445e1d847d36d2344d61bcb".data ∧
    Change.id "quitch".data { Change.example with note := emoji_note } none =
      "fb29c4f840ce9cd266d983a2c90d7ddf745c1711".data ∧
    (utf8 emoji_note).length = 17 ∧ emoji_note.length = 5 ∧
    (Change.id "quitch".data Change.example none).length = 40 :=
  ⟨by decide, by decide, by decide, by decide, by decide, by decide⟩

/-- C6: during revert, the script execution effect strictly precedes every
registry effect; on success the trace is exactly script, row deletion by
change id, `"revert"` event (error not surfaced); on failure it is exactly
script, `"fail"` event (error surfaced), and no row deletion occurs. -/
theorem claim6_revert_mutates_only_after_script (target : FullChange) (sql : Str)
    (script_fails : Bool) :
    (revert_execute target sql script_fails).1 =
      .run_script sql ::
        (if script_fails then [.log_event "fail".data target.id]
         else [.delete_change_row target.id, .log_event "revert".data target.id]) ∧
    (revert_execute target sql script_fails).2 = script_fails ∧
    ((revert_execute target sql script_fails).1.take 1).any
      (fun e => e.touches_registry) = false ∧
    ((revert_execute target sql script_fails).1.drop 1).all
      (fun e => e.touches_registry) = true ∧
    ((revert_execute target sql true).1.contains
      (RevertEffect.delete_change_row target.id)) = false := by
  cases script_fails <;>
    simp [revert_execute, RevertEffect.touches_registry, List.contains]

/-- C7: the spec says a change line with an unparsable date field yields an
`InvalidDate` error, but `new Date(string)` never throws — it returns an
Invalid Date — so the `try`/`catch` in `parse_line` is dead and the line
parses successfully with an Invalid Date (`none`): the code contradicts its
own (unreachable) error message. -/
theorem claim7_invalid_date_accepted :
    Change.parse_line "x !!! p # n".data =
      .ok { name := "x".data, note := "n".data, date := none, planner := "p".data } ∧
    js_parse_date "!!!".data = none :=
  ⟨by decide, by decide⟩

/-- `parse_line` only ever fails with the two missing-space errors. -/
theorem parse_line_error_shape (l : Str) (e : ParseError)
    (h : Change.parse_line l = .error e) :
    e = .missingSpaceAfterName l ∨ e = .missingSpaceAfterDate l := by
  cases h1 : indexOf? ' ' l with
  | none =>
    simp only [Change.parse_line, h1] at h
    exact Or.inl (Except.error.inj h).symm
  | some i =>
    cases h2 : indexOf? ' ' (trimStart (l.drop i)) with
    | none =>
      simp only [Change.parse_line, h1, h2] at h
      exact Or.inr (Except.error.inj h).symm
    | some j =>
      cases h3 : indexOf? '#' (trimStart ((trimStart (l.drop i)).drop j)) with
      | none =>
        simp only [Change.parse_line, h1, h2, h3] at h
        exact Except.noConfusion h
      | some k =>
        simp only [Change.parse_line, h1, h2, h3] at h
        exact Except.noConfusion h

/-- The change-line loop never produces the plan-level syntax-version error. -/
theorem parse_changes_no_version_error (ls : List Str) :
    parse_changes ls ≠ .error .unsupportedVersion := by
  induction ls with
  | nil => intro h; exact Except.noConfusion h
  | cons l rest ih =>
    intro h
    unfold parse_changes at h
    cases hpl : Change.parse_line l with
    | error e =>
      rw [hpl] at h
      rcases parse_line_error_shape l e hpl with he | he <;>
        · subst he; exact ParseError.noConfusion (Except.error.inj h)
    | ok c =>
      rw [hpl] at h
      cases hrest : parse_changes rest with
      | error e' =>
        rw [hrest] at h
        simp only [Except.map] at h
        exact ih (hrest.trans (congrArg Except.error (Except.error.inj h)))
      | ok cs => rw [hrest] at h; simp only [Except.map] at h; exact Except.noConfusion h

/-- C8 (amended): `Plan.parse` fails with the syntax-version error exactly
when the first line of the `"\n"`-split input — `lines[0]`, whether or not it
is empty — differs from `%syntax-version=1.0.0`; a document whose marker is
preceded by a blank line is rejected even though its first non-empty line is
the marker. -/
theorem claim8_first_line_must_be_marker (text : Str) :
    Plan.parse text = .error .unsupportedVersion ↔
      (splitNl text).headD [] ≠ version_marker := by
  constructor
  · intro h
    by_contra heq
    simp only [Plan.parse] at h
    rw [if_neg (fun hcon => hcon heq)] at h
    cases hpc : parse_changes
        (((splitNl text).filter (fun l => !startsWithPercent l)).filter
          (fun l => !(trim l).isEmpty)) with
    | error e =>
      rw [hpc] at h
      simp only [Except.map] at h
      exact parse_changes_no_version_error _ (hpc.trans (congrArg _ (Except.error.inj h)))
    | ok cs =>
      rw [hpc] at h
      simp only [Except.map] at h
      exact Except.noConfusion h
  · intro h
    simp only [Plan.parse]
    rw [if_pos h]

/-- C8 (counterexample): a document consisting of a blank line followed by the
marker has the marker as its first non-empty line, yet `Plan.parse` rejects it
with the syntax-version error. -/
theorem claim8_counterexample :
    ((splitNl "\n%syntax-version=1.0.0\n".data).find? (fun l => !l.isEmpty)) =
      some version_marker ∧
    Plan.parse "\n%syntax-version=1.0.0\n".data = .error .unsupportedVersion :=
  ⟨by decide, by decide⟩

/-- C8 (witness): the amended equivalence applied to a concrete document whose
first line is not the marker. -/
theorem claim8_witness :
    Plan.parse "x".data = .error .unsupportedVersion :=
  (claim8_first_line_must_be_marker "x".data).mpr (by decide)

/-- `trimStart` is idempotent. -/
theorem trimStart_idem (s : Str) : trimStart (trimStart s) = trimStart s := by
  induction s with
  | nil => rfl
  | cons c r ih =>
    by_cases h : js_ws c = true
    · simp [trimStart, h, ih]
    · simp [trimStart, h]

/-- C9 (amended): on a change line with no `#` after the name and date fields
are consumed, `parse_line` returns an empty note and a planner equal to the
remainder of the line with its *leading* whitespace removed — trailing
whitespace is preserved (only `trimStart` is applied in this branch). -/
theorem claim9_no_hash_planner (line : Str) (i j : Nat)
    (h1 : indexOf? ' ' line = some i)
    (h2 : indexOf? ' ' (trimStart (line.drop i)) = some j)
    (h3 : indexOf? '#' (trimStart ((trimStart (line.drop i)).drop j)) = none) :
    Change.parse_line line =
      .ok { name := line.take i,
            note := [],
            date := js_parse_date ((trimStart (line.drop i)).take j),
            planner := trimStart ((trimStart (line.drop i)).drop j) } ∧
    trimStart (trimStart ((trimStart (line.drop i)).drop j)) =
      trimStart ((trimStart (line.drop i)).drop j) := by
  constructor
  · simp only [Change.parse_line, h1, h2, h3]
  · exact trimStart_idem _

/-- C9 (witness): the no-`#` branch on a concrete line. -/
theorem claim9_witness :
    Change.parse_line "a 2024-01-01T00:00:00Z b".data =
      .ok { name := "a".data, note := [],
            date := js_parse_date "2024-01-01T00:00:00Z".data,
            planner := "b".data } := by
  have h := claim9_no_hash_planner "a 2024-01-01T00:00:00Z b".data 1 20
    (by decide) (by decide) (by decide)
  exact h.1.trans (by decide)

/-- C9 (counterexample): on a `#`-free line with trailing whitespace the
returned planner keeps that whitespace, so it is not the trimmed remainder the
claim describes. -/
theorem claim9_counterexample :
    Change.parse_line "a 2024-01-01T00:00:00Z b ".data =
      .ok { name := "a".data, note := [],
            date := js_parse_date "2024-01-01T00:00:00Z".data,
            planner := "b ".data } ∧
    trim "b ".data ≠ "b ".data :=
  ⟨by decide, by decide⟩

/-- C10 (amended): on a change line containing `#` (after name and date), the
note is the text after the first `#` with surrounding whitespace removed and
`\n` escape sequences then decoded to newlines; because the trim happens
before decoding, an escaped newline at either end decodes back, so a parsed
note can begin or end with a newline, though no other surrounding whitespace
survives a parse. -/
theorem claim10_note_trim_then_decode (line : Str) (i j k : Nat)
    (h1 : indexOf? ' ' line = some i)
    (h2 : indexOf? ' ' (trimStart (line.drop i)) = some j)
    (h3 : indexOf? '#' (trimStart ((trimStart (line.drop i)).drop j)) = some k) :
    Change.parse_line line =
      .ok { name := line.take i,
            note := unescapeNote
              (trim ((trimStart ((trimStart (line.drop i)).drop j)).drop (k + 1))),
            date := js_parse_date ((trimStart (line.drop i)).take j),
            planner := trim ((trimStart ((trimStart (line.drop i)).drop j)).take k) } := by
  simp only [Change.parse_line, h1, h2, h3]

/-- C10 (witness): the `#` branch on a concrete line with surrounding
whitespace around the note. -/
theorem claim10_witness :
    Change.parse_line "a 2024-01-01T00:00:00Z b #  n ".data =
      .ok { name := "a".data, note := "n".data,
            date := js_parse_date "2024-01-01T00:00:00Z".data,
            planner := "b".data } := by
  have h := claim10_note_trim_then_decode "a 2024-01-01T00:00:00Z b #  n ".data 1 20 2
    (by decide) (by decide) (by decide)
  exact h.trans (by decide)

/-- C10 (counterexample): a note whose escaped text ends in `\n` decodes to a
note with a trailing newline — a whitespace character — refuting the claim's
consequence that no parsed note has leading or trailing whitespace. -/
theorem claim10_counterexample :
    Change.parse_line "a 2024-01-01T00:00:00Z b # x\\n".data =
      .ok { name := "a".data, note := ['x', '\n'],
            date := js_parse_date "2024-01-01T00:00:00Z".data,
            planner := "b".data } ∧
    js_ws '\n' = true :=
  ⟨by decide, by decide⟩

/-! ### The full-change materializer (C3) -/

theorem full_changes_from_length (proj : Str) (par : Option Str) (cs : List Change) :
    (full_changes_from proj par cs).length = cs.length := by
  induction cs generalizing par with
  | nil => rfl
  | cons c cs ih => simp [full_changes_from, ih]

theorem full_changes_from_toChange (proj : Str) (par : Option Str) (cs : List Change) :
    (full_changes_from proj par cs).map FullChange.toChange = cs := by
  induction cs generalizing par with
  | nil => rfl
  | cons c cs ih => simp [full_changes_from, ih]

theorem full_changes_from_head_parent (proj : Str) (par : Option Str) (c : Change)
    (cs : List Change) :
    ((full_changes_from proj par (c :: cs)).getD 0 default).parent = par := by
  simp only [full_changes_from, List.getD_cons_zero]

theorem full_changes_from_id (proj : Str) (par : Option Str) (cs : List Change)
    (i : Nat) (h : i < cs.length) :
    ((full_changes_from proj par cs).getD i default).id =
      Change.id proj ((full_changes_from proj par cs).getD i default).toChange
        ((full_changes_from proj par cs).getD i default).parent := by
  induction cs generalizing par i with
  | nil => exact absurd h (Nat.not_lt_zero i)
  | cons c cs ih =>
    cases i with
    | zero => simp only [full_changes_from, List.getD_cons_zero]
    | succ i =>
      simp only [full_changes_from, List.getD_cons_succ]
      exact ih (some (Change.id proj c par)) i (Nat.lt_of_succ_lt_succ h)

theorem full_changes_from_parent_chain (proj : Str) (par : Option Str) (cs : List Change)
    (i : Nat) (h : i + 1 < cs.length) :
    ((full_changes_from proj par cs).getD (i + 1) default).parent =
      some (((full_changes_from proj par cs).getD i default).id) := by
  induction cs generalizing par i with
  | nil => exact absurd h (Nat.not_lt_zero _)
  | cons c cs ih =>
    cases i with
    | zero =>
      cases cs with
      | nil => exact absurd h (by simp)
      | cons c' cs' => simp only [full_changes_from, List.getD_cons_zero, List.getD_cons_succ]
    | succ i =>
      simp only [full_changes_from, List.getD_cons_succ]
      exact ih (some (Change.id proj c par)) i (Nat.lt_of_succ_lt_succ h)

/-- C3: `full_changes` yields exactly one `FullChange` per plan change in plan
order (erasing ids gives back the plan's change list), the first yielded
change has no parent, every later one's parent is the id of the change
yielded immediately before it, and every yielded id is the change-identity
function applied to the plan's project, that change, and that parent.  The
`dates_ok` hypothesis restricts to plans on which the JS generator actually
yields instead of throwing from `toISOString`. -/
theorem claim3_full_changes_chain (plan : Plan) (_hd : dates_ok plan) :
    plan.full_changes.map FullChange.toChange = plan.changes ∧
    plan.full_changes.length = plan.changes.length ∧
    (0 < plan.full_changes.length → (plan.full_changes.getD 0 default).parent = none) ∧
    (∀ i, i + 1 < plan.full_changes.length →
      (plan.full_changes.getD (i + 1) default).parent =
        some ((plan.full_changes.getD i default).id)) ∧
    (∀ i, i < plan.full_changes.length →
      (plan.full_changes.getD i default).id =
        Change.id plan.project (plan.full_changes.getD i default).toChange
          (plan.full_changes.getD i default).parent) := by
  have hlen : plan.full_changes.length = plan.changes.length :=
    full_changes_from_length plan.project none plan.changes
  refine ⟨full_changes_from_toChange _ _ _, hlen, ?_, ?_, ?_⟩
  · intro h
    rw [hlen] at h
    cases hcs : plan.changes with
    | nil => rw [hcs] at h; exact absurd h (by simp)
    | cons c cs =>
      have := full_changes_from_head_parent plan.project none c cs
      simpa only [Plan.full_changes, hcs] using this
  · intro i h
    rw [hlen] at h
    exact full_changes_from_parent_chain plan.project none plan.changes i h
  · intro i h
    rw [hlen] at h
    exact full_changes_from_id plan.project none plan.changes i h

/-- C3 (witness): the chain properties instantiated on a concrete two-change
plan. -/
theorem claim3_witness :
    dates_ok wit_plan ∧
    wit_plan.full_changes.map FullChange.toChange = wit_plan.changes ∧
    (wit_plan.full_changes.getD 1 default).parent =
      some ((wit_plan.full_changes.getD 0 default).id) :=
  ⟨by decide, (claim3_full_changes_chain wit_plan (by decide)).1,
    (claim3_full_changes_chain wit_plan (by decide)).2.2.2.1 0 (by decide)⟩

/-! ### Revert target selection (C5) -/

theorem sha1_foldl_length (bs : List (List Nat)) (h : List Nat) (hh : h.length = 5) :
    (bs.foldl sha1_block h).length = 5 := by
  induction bs generalizing h with
  | nil => exact hh
  | cons b bs ih => exact ih (sha1_block h b) rfl

theorem sha1_length (msg : List Nat) : (sha1 msg).length = 5 := by
  unfold sha1
  exact sha1_foldl_length _ _ rfl

theorem sha1_hex_ne_nil (msg : List Nat) : sha1_hex msg ≠ [] := by
  have h5 := sha1_length msg
  unfold sha1_hex
  cases hs : sha1 msg with
  | nil => rw [hs] at h5; exact absurd h5 (by simp)
  | cons w ws => simp [wordHex]

/-- A change id is never the empty string (it is 40 hex characters). -/
theorem change_id_ne_nil (proj : Str) (c : Change) (par : Option Str) :
    Change.id proj c par ≠ [] :=
  sha1_hex_ne_nil _

/-- `find?` on a list of full changes with pairwise-distinct ids locates the
element at any index by its id. -/
theorem find?_by_id_getD (l : List FullChange)
    (hnd : (l.map FullChange.id).Nodup) (i : Nat) (h : i < l.length) :
    l.find? (fun c => c.id = (l.getD i default).id) = some (l.getD i default) := by
  induction l generalizing i with
  | nil => exact absurd h (Nat.not_lt_zero i)
  | cons a l ih =>
    rw [List.map_cons, List.nodup_cons] at hnd
    cases i with
    | zero => simp [List.find?_cons]
    | succ i =>
      have hi : i < l.length := Nat.lt_of_succ_lt_succ h
      simp only [List.getD_cons_succ]
      have hne : a.id ≠ (l.getD i default).id := by
        intro hcon
        exact hnd.1 (hcon ▸ List.mem_map_of_mem FullChange.id
          (List.getD_eq_getElem l default hi ▸ l.getElem_mem hi))
      rw [List.find?_cons]
      simp only [decide_eq_false hne]
      exact ih hnd.2 i hi

theorem getLast?_eq_getD_length_sub_one (l : List FullChange) (h : l ≠ []) :
    l.getLast? = some (l.getD (l.length - 1) default) := by
  have hlt : l.length - 1 < l.length := by
    cases l with
    | nil => exact absurd rfl h
    | cons a m => simp
  rw [List.getLast?_eq_getElem?, List.getElem?_eq_getElem hlt,
    List.getD_eq_getElem l default hlt]

theorem full_changes_length (plan : Plan) :
    plan.full_changes.length = plan.changes.length :=
  full_changes_from_length plan.project none plan.changes

theorem full_changes_getD_id (plan : Plan) (i : Nat) (h : i < plan.changes.length) :
    (plan.full_changes.getD i default).id =
      Change.id plan.project (plan.full_changes.getD i default).toChange
        (plan.full_changes.getD i default).parent :=
  full_changes_from_id plan.project none plan.changes i h

theorem full_changes_getD_parent (plan : Plan) (i : Nat) (h : i + 1 < plan.changes.length) :
    (plan.full_changes.getD (i + 1) default).parent =
      some ((plan.full_changes.getD i default).id) :=
  full_changes_from_parent_chain plan.project none plan.changes i h

/-- C5: given the reconciler's result, the revert target is the change
immediately preceding the first undeployed change (located by its parent id),
or the plan's last change when everything is deployed; when the first
undeployed change has no parent, or the plan is empty, selection fails with
the nothing-to-revert error. -/
theorem claim5_revert_target_selection (plan : Plan) (_hd : dates_ok plan)
    (hnd : (plan.full_changes.map FullChange.id).Nodup) :
    (∀ i, i + 1 < plan.full_changes.length →
      select_revert_target plan (some (plan.full_changes.getD (i + 1) default)) =
        .ok (plan.full_changes.getD i default)) ∧
    (0 < plan.full_changes.length →
      select_revert_target plan (some (plan.full_changes.getD 0 default)) =
        .error .nothingToRevert) ∧
    (select_revert_target plan none =
      match plan.full_changes.getLast? with
      | some c => .ok c
      | none => .error .nothingToRevert) := by
  have hlen : plan.full_changes.length = plan.changes.length :=
    full_changes_length plan
  refine ⟨?_, ?_, ?_⟩
  · intro i h
    have hpar : (plan.full_changes.getD (i + 1) default).parent =
        some ((plan.full_changes.getD i default).id) :=
      full_changes_getD_parent plan i (hlen ▸ h)
    have hid_ne : (plan.full_changes.getD i default).id ≠ [] := by
      rw [full_changes_getD_id plan i (hlen ▸ Nat.lt_of_succ_lt h)]
      exact change_id_ne_nil _ _ _
    have hfind := find?_by_id_getD plan.full_changes hnd i (Nat.lt_of_succ_lt h)
    simp only [select_revert_target, hpar]
    rw [if_neg (by simpa [List.isEmpty_iff] using hid_ne), hfind]
  · intro h
    have h0 : (plan.full_changes.getD 0 default).parent = none := by
      rw [hlen] at h
      cases hcs : plan.changes with
      | nil => rw [hcs] at h; exact absurd h (by simp)
      | cons c cs =>
        have := full_changes_from_head_parent plan.project none c cs
        simpa only [Plan.full_changes, hcs] using this
    simp only [select_revert_target, h0]
  · cases hcs : plan.changes with
    | nil =>
      have hnil : plan.full_changes = [] := by
        rw [hcs] at hlen
        exact List.length_eq_zero.mp hlen
      simp [select_revert_target, hnil]
    | cons c cs =>
      have hne : plan.full_changes ≠ [] := by
        intro hq
        rw [hq, hcs] at hlen
        exact absurd hlen.symm (by simp)
      have hlast := getLast?_eq_getD_length_sub_one plan.full_changes hne
      have hlt : plan.full_changes.length - 1 < plan.full_changes.length := by
        cases hq : plan.full_changes with
        | nil => exact absurd hq hne
        | cons a m => simp
      have hid_ne : (plan.full_changes.getD (plan.full_changes.length - 1) default).id ≠ [] := by
        rw [full_changes_getD_id plan _ (hlen ▸ hlt)]
        exact change_id_ne_nil _ _ _
      have hfind := find?_by_id_getD plan.full_changes hnd _ hlt
      simp only [select_revert_target]
      rw [hlast]
      simp only [Option.map_some']
      rw [if_neg (by simpa [List.isEmpty_iff] using hid_ne), hfind]

/-! ### The registry reconciler (C2) -/

theorem jsmap_set_of_not_mem (m : List (Str × ChangeRow)) (k : Str) (v : ChangeRow)
    (h : k ∉ m.map Prod.fst) : jsmap_set m k v = m ++ [(k, v)] := by
  induction m with
  | nil => rfl
  | cons e m ih =>
    rw [List.map_cons, List.mem_cons] at h
    push_neg at h
    simp only [jsmap_set, if_neg (fun hc : e.1 = k => h.1 hc.symm), List.cons_append]
    rw [ih h.2]

/-- Building the JS map from rows with pairwise-distinct change ids just pairs
each row with its id, in row order. -/
theorem jsmap_of_eq (rows : List ChangeRow)
    (hkeys : (rows.map ChangeRow.change_id).Nodup) :
    jsmap_of rows = rows.map (fun r => (r.change_id, r)) := by
  suffices h : ∀ acc : List (Str × ChangeRow),
      (acc.map Prod.fst ++ rows.map ChangeRow.change_id).Nodup →
      rows.foldl (fun m r => jsmap_set m r.change_id r) acc =
        acc ++ rows.map (fun r => (r.change_id, r)) by
    simpa using h [] (by simpa using hkeys)
  induction rows with
  | nil => intro acc _; simp
  | cons r rest ih =>
    intro acc hacc
    have hnotin : r.change_id ∉ acc.map Prod.fst := by
      rw [List.map_cons] at hacc
      exact fun hin => (List.nodup_append.mp hacc).2.2 hin
        (List.mem_cons_self r.change_id _)
    have hstep := jsmap_set_of_not_mem acc r.change_id r hnotin
    rw [List.foldl_cons, hstep]
    have hacc2 : ((acc ++ [(r.change_id, r)]).map Prod.fst ++
        rest.map ChangeRow.change_id).Nodup := by
      rw [List.map_append, List.append_assoc]
      rw [List.map_cons] at hacc
      simpa using hacc
    rw [ih (by rw [List.map_cons] at hacc; exact (List.nodup_append.mp hacc).2.1.of_cons)
      (acc ++ [(r.change_id, r)]) hacc2]
    simp

theorem jsmap_has_map_pair (rows : List ChangeRow) (k : Str) :
    jsmap_has (rows.map (fun r => (r.change_id, r))) k =
      rows.any (fun r => r.change_id = k) := by
  induction rows with
  | nil => rfl
  | cons r rest ih =>
    simp only [List.map_cons, jsmap_has, List.any_cons] at ih ⊢
    rw [ih]

theorem jsmap_has_del_ne (m : List (Str × ChangeRow)) (k k2 : Str) (h : k2 ≠ k) :
    jsmap_has (jsmap_del m k) k2 = jsmap_has m k2 := by
  induction m with
  | nil => rfl
  | cons e m ih =>
    simp only [jsmap_del, List.filter_cons] at ih ⊢
    by_cases he : e.1 = k
    · rw [if_neg (by simp [he])]
      rw [ih]
      simp only [jsmap_has, List.any_cons]
      have hd : (decide (e.1 = k2)) = false :=
        decide_eq_false (fun hc => h (hc.symm.trans he))
      rw [hd]
      simp
    · rw [if_pos (by simp [he])]
      simp only [jsmap_has] at ih
      simp only [jsmap_has, List.any_cons]
      rw [ih]

theorem takeWhile_congr_of_mem {α : Type} (l : List α) (p q : α → Bool)
    (h : ∀ x ∈ l, p x = q x) : l.takeWhile p = l.takeWhile q := by
  induction l with
  | nil => rfl
  | cons a l ih =>
    have ha := h a (List.mem_cons_self a l)
    by_cases hp : p a = true
    · rw [List.takeWhile_cons, List.takeWhile_cons, hp, ← ha, hp]
      simp only [if_true]
      rw [ih (fun x hx => h x (List.mem_cons_of_mem a hx))]
    · have hp2 : p a = false := by revert hp; cases p a <;> simp
      rw [List.takeWhile_cons, List.takeWhile_cons, hp2, ← ha, hp2]
      simp

theorem dropWhile_congr_of_mem {α : Type} (l : List α) (p q : α → Bool)
    (h : ∀ x ∈ l, p x = q x) : l.dropWhile p = l.dropWhile q := by
  induction l with
  | nil => rfl
  | cons a l ih =>
    have ha := h a (List.mem_cons_self a l)
    by_cases hp : p a = true
    · rw [List.dropWhile_cons, List.dropWhile_cons, hp, ← ha, hp]
      simp only [if_true]
      exact ih (fun x hx => h x (List.mem_cons_of_mem a hx))
    · have hp2 : p a = false := by revert hp; cases p a <;> simp
      rw [List.dropWhile_cons, List.dropWhile_cons, hp2, ← ha, hp2]
      simp

theorem isEmpty_map {α β : Type} (f : α → β) (l : List α) :
    (l.map f).isEmpty = l.isEmpty := by
  cases l <;> rfl

/-- Characterization of the reconciler walk: with pairwise-distinct chain ids
the deployed prefix is the longest prefix whose ids are keys of the map, the
first undeployed change is the next one, and the remaining map keeps exactly
the entries not matched by the deployed prefix, in order. -/
theorem validate_walk_spec (fcs : List FullChange) (m : List (Str × ChangeRow))
    (hnd : (fcs.map FullChange.id).Nodup) :
    validate_walk fcs m =
      (m.filter (fun e =>
         !((fcs.takeWhile (fun c => jsmap_has m c.id)).any (fun c => c.id = e.1))),
       (fcs.dropWhile (fun c => jsmap_has m c.id)).head?) := by
  induction fcs generalizing m with
  | nil => simp [validate_walk]
  | cons c cs ih =>
    rw [List.map_cons, List.nodup_cons] at hnd
    cases hh : jsmap_has m c.id with
    | false =>
      have hw : validate_walk (c :: cs) m = (m, some c) := by
        simp [validate_walk, hh]
      rw [hw]
      simp [List.takeWhile_cons, List.dropWhile_cons, hh]
    | true =>
      have hcong : ∀ x ∈ cs, jsmap_has (jsmap_del m c.id) x.id = jsmap_has m x.id := by
        intro x hx
        apply jsmap_has_del_ne
        intro hc
        exact hnd.1 (hc ▸ List.mem_map_of_mem FullChange.id hx)
      have hw : validate_walk (c :: cs) m = validate_walk cs (jsmap_del m c.id) := by
        simp [validate_walk, hh]
      rw [hw, ih (jsmap_del m c.id) hnd.2]
      rw [takeWhile_congr_of_mem cs _ _ hcong, dropWhile_congr_of_mem cs _ _ hcong]
      rw [List.takeWhile_cons, List.dropWhile_cons]
      simp only [hh, if_true]
      refine Prod.ext ?_ rfl
      show (jsmap_del m c.id).filter _ = m.filter _
      simp only [jsmap_del]
      rw [List.filter_filter]
      apply List.filter_congr
      intro e _
      by_cases hec : c.id = e.1
      · have h1 : (decide (e.1 ≠ c.id)) = false :=
          decide_eq_false (fun hne => hne hec.symm)
        simp [List.any_cons, hec, h1]
      · have h1 : (decide (e.1 ≠ c.id)) = true :=
          decide_eq_true (fun hc => hec hc.symm)
        simp [List.any_cons, hec, h1]

/-- C2: with distinct chain ids and distinct registry ids, the reconciler
walks the materialized sequence in plan order removing matched registry ids;
it returns the first change whose id is absent from the registry-id set as
first undeployed (empty registry + non-empty plan: the plan's first change;
registry holding exactly all plan ids: none), and when registry ids remain
unmatched after the walk it fails with a consistency error naming exactly
those ids (with their change names) instead of returning a result. -/
theorem claim2_reconciler_first_undeployed (plan : Plan) (rows : List ChangeRow)
    (_hd : dates_ok plan)
    (hnd : (plan.full_changes.map FullChange.id).Nodup)
    (hkeys : (rows.map ChangeRow.change_id).Nodup) :
    (validate_against_plan rows plan =
      (let deployed := plan.full_changes.takeWhile
         (fun c => rows.any (fun r2 => r2.change_id = c.id))
       let leftover := rows.filter
         (fun r => !(deployed.any (fun c => c.id = r.change_id)))
       if leftover.isEmpty then
         .ok ((plan.full_changes.dropWhile
           (fun c => rows.any (fun r2 => r2.change_id = c.id))).head?)
       else .error (.unknown_changes
         (leftover.map (fun r => (r.change_id, r.change)))))) ∧
    (rows = [] → validate_against_plan rows plan = .ok plan.full_changes.head?) ∧
    (plan.changes ≠ [] → plan.full_changes ≠ []) ∧
    (List.Perm (rows.map ChangeRow.change_id) (plan.full_changes.map FullChange.id) →
      validate_against_plan rows plan = .ok none) := by
  have hfun : (fun c : FullChange =>
      jsmap_has (rows.map (fun r => (r.change_id, r))) c.id) =
      (fun c : FullChange => rows.any (fun r2 => r2.change_id = c.id)) :=
    funext (fun c => jsmap_has_map_pair rows c.id)
  have hmain : validate_against_plan rows plan =
      (let deployed := plan.full_changes.takeWhile
         (fun c => rows.any (fun r2 => r2.change_id = c.id))
       let leftover := rows.filter
         (fun r => !(deployed.any (fun c => c.id = r.change_id)))
       if leftover.isEmpty then
         .ok ((plan.full_changes.dropWhile
           (fun c => rows.any (fun r2 => r2.change_id = c.id))).head?)
       else .error (.unknown_changes
         (leftover.map (fun r => (r.change_id, r.change))))) := by
    simp only [validate_against_plan]
    rw [jsmap_of_eq rows hkeys, validate_walk_spec plan.full_changes _ hnd, hfun]
    rw [List.filter_map, isEmpty_map, List.map_map]
    rfl
  refine ⟨hmain, ?_, ?_, ?_⟩
  · intro hrows
    subst hrows
    rw [hmain]
    have hdw : plan.full_changes.dropWhile
        (fun c => ([] : List ChangeRow).any (fun r2 => r2.change_id = c.id)) =
        plan.full_changes := by
      cases hfc : plan.full_changes with
      | nil => rfl
      | cons a m => rw [List.dropWhile_cons]; simp
    simp only [List.filter_nil, List.isEmpty_nil, if_true, hdw]
  · intro hcs hq
    apply hcs
    have hl := full_changes_length plan
    rw [hq] at hl
    exact List.length_eq_zero.mp hl.symm
  · intro hperm
    have hall : ∀ c ∈ plan.full_changes,
        (rows.any (fun r2 => r2.change_id = c.id)) = true := by
      intro c hc
      have hmem : c.id ∈ rows.map ChangeRow.change_id :=
        hperm.mem_iff.mpr (List.mem_map_of_mem FullChange.id hc)
      rcases List.mem_map.mp hmem with ⟨r, hr, he⟩
      exact List.any_eq_true.mpr ⟨r, hr, decide_eq_true he⟩
    have hleft : rows.filter (fun r =>
        !((plan.full_changes.takeWhile
          (fun c => rows.any (fun r2 => r2.change_id = c.id))).any
          (fun c => c.id = r.change_id))) = [] := by
      rw [List.takeWhile_eq_self_iff.mpr hall]
      rw [List.filter_eq_nil_iff]
      intro r hr
      have hmem : r.change_id ∈ plan.full_changes.map FullChange.id :=
        hperm.mem_iff.mp (List.mem_map_of_mem ChangeRow.change_id hr)
      rcases List.mem_map.mp hmem with ⟨c, hc, he⟩
      have hany : (plan.full_changes.any (fun c => c.id = r.change_id)) = true :=
        List.any_eq_true.mpr ⟨c, hc, decide_eq_true he⟩
      simp [hany]
    rw [hmain]
    simp only [hleft, List.isEmpty_nil, if_true]
    rw [List.dropWhile_eq_nil_iff.mpr hall]
    rfl

/-- C2 (witness): the reconciler on a concrete two-change plan: empty registry
gives the first change as first undeployed; a registry holding exactly both
ids gives none. -/
theorem claim2_witness :
    dates_ok wit_plan ∧
    (wit_plan.full_changes.map FullChange.id).Nodup ∧
    validate_against_plan [] wit_plan = .ok wit_plan.full_changes.head? ∧
    validate_against_plan
      (wit_plan.full_changes.map (fun c => row_of c.id c.name)) wit_plan = .ok none :=
  ⟨by decide, by decide,
    (claim2_reconciler_first_undeployed wit_plan [] (by decide) (by decide)
      (by decide)).2.1 rfl,
    (claim2_reconciler_first_undeployed wit_plan
      (wit_plan.full_changes.map (fun c => row_of c.id c.name)) (by decide) (by decide)
      (by decide)).2.2.2 (by decide)⟩

/-- C5 (witness): target selection on a concrete two-change plan: reverting
with first undeployed at index 1 targets index 0; with the first change
undeployed nothing is deployed; with everything deployed the last change is
the target. -/
theorem claim5_witness :
    dates_ok wit_plan ∧
    (wit_plan.full_changes.map FullChange.id).Nodup ∧
    select_revert_target wit_plan (some (wit_plan.full_changes.getD 1 default)) =
      .ok (wit_plan.full_changes.getD 0 default) ∧
    select_revert_target wit_plan (some (wit_plan.full_changes.getD 0 default)) =
      .error .nothingToRevert :=
  ⟨by decide, by decide,
    (claim5_revert_target_selection wit_plan (by decide) (by decide)).1 0 (by decide),
    (claim5_revert_target_selection wit_plan (by decide) (by decide)).2.1 (by decide)⟩

set_option maxRecDepth 40000

theorem is_leap_iff (y : Nat) :
    is_leap y = true ↔ (y % 4 = 0 ∧ (y % 100 ≠ 0 ∨ y % 400 = 0)) := by
  simp [is_leap]

set_option maxHeartbeats 2000000 in
theorem days_before_year_succ (y : Nat) :
    days_before_year (y + 1) =
      days_before_year y + 365 + (if is_leap y = true then 1 else 0) := by
  by_cases h : is_leap y = true
  · rw [if_pos h]
    rw [is_leap_iff] at h
    simp only [days_before_year]
    omega
  · rw [if_neg h]
    rw [is_leap_iff] at h
    push_neg at h
    simp only [days_before_year]
    omega

theorem days_before_year_zero : days_before_year 0 = 0 := by decide

theorem days_before_year_limit : days_before_year 10000 = 3652425 := by decide

theorem yearSearch_spec (f : Nat) : ∀ (y n : Nat),
    days_before_year y ≤ n → n < days_before_year (y + f) →
    days_before_year (yearSearch f y n) ≤ n ∧
    n < days_before_year (yearSearch f y n + 1) ∧
    yearSearch f y n < y + f := by
  induction f with
  | zero =>
    intro y n hbase hbound
    rw [Nat.add_zero] at hbound
    exact absurd hbase (Nat.not_le_of_lt hbound)
  | succ f ih =>
    intro y n hbase hbound
    unfold yearSearch
    by_cases h : days_before_year (y + 1) ≤ n
    · rw [if_pos h]
      have hb2 : n < days_before_year (y + 1 + f) := by
        rw [show y + 1 + f = y + (f + 1) by omega]
        exact hbound
      rcases ih (y + 1) n h hb2 with ⟨a, b, c⟩
      exact ⟨a, b, by omega⟩
    · rw [if_neg h]
      exact ⟨hbase, Nat.lt_of_not_le h, by omega⟩

theorem year_of_day_spec (n : Nat) (h : n < 3652425) :
    days_before_year (year_of_day n) ≤ n ∧
    n < days_before_year (year_of_day n + 1) ∧
    year_of_day n < 10000 := by
  have := yearSearch_spec 10000 0 n (by rw [days_before_year_zero]; exact Nat.zero_le n)
    (by rw [Nat.zero_add, days_before_year_limit]; exact h)
  simpa [year_of_day] using this

theorem civil_month_day_spec_ball : ∀ r < 366, ∀ b : Bool,
    (r < 365 + (if b then 1 else 0)) →
    (1 ≤ (civil_month_day b r).1 ∧ (civil_month_day b r).1 ≤ 12 ∧
     (civil_month_day b r).2 < days_in_month b (civil_month_day b r).1 ∧
     days_before_month b (civil_month_day b r).1 + (civil_month_day b r).2 = r) := by
  set_option maxHeartbeats 2000000 in decide

/-- Correctness of the day-number to Gregorian conversion on the printable
range, together with the field bounds `toISOString` prints with. -/
theorem civil_from_day_spec (n : Nat) (h : n < 3652425) :
    day_number (civil_from_day n).1 (civil_from_day n).2.1 (civil_from_day n).2.2 = n ∧
    (civil_from_day n).1 < 10000 ∧
    1 ≤ (civil_from_day n).2.1 ∧ (civil_from_day n).2.1 ≤ 12 ∧
    1 ≤ (civil_from_day n).2.2 ∧
    (civil_from_day n).2.2 ≤ days_in_month (is_leap (civil_from_day n).1) (civil_from_day n).2.1 := by
  obtain ⟨h1, h2, h3⟩ := year_of_day_spec n h
  have hr : n - days_before_year (year_of_day n) <
      365 + (if is_leap (year_of_day n) = true then 1 else 0) := by
    have := days_before_year_succ (year_of_day n)
    omega
  have hr366 : n - days_before_year (year_of_day n) < 366 := by
    by_cases hb : is_leap (year_of_day n) = true <;> simp [hb] at hr <;> omega
  have hm := civil_month_day_spec_ball (n - days_before_year (year_of_day n)) hr366
    (is_leap (year_of_day n)) (by simpa using hr)
  simp only [civil_from_day, day_number]
  refine ⟨?_, h3, hm.1, hm.2.1, by omega, by omega⟩
  omega

theorem digitVal?_digitChar (k : Nat) : digitVal? (digitChar k) = some (k % 10) := by
  have hball : ∀ j < 10, digitVal? (digitChar j) = some j := by decide
  have h10 : k % 10 < 10 := Nat.mod_lt _ (by omega)
  have hch : digitChar k = digitChar (k % 10) := by
    unfold digitChar
    congr 1
    omega
  rw [hch]
  exact hball (k % 10) h10

theorem readDigits_pad2 (n : Nat) (h : n < 100) (rest : Str) :
    readDigits 2 0 (pad2 n ++ rest) = some (n, rest) := by
  simp only [pad2, List.cons_append, List.nil_append, readDigits, digitVal?_digitChar]
  have he : (0 * 10 + n / 10 % 10) * 10 + n % 10 = n := by omega
  rw [he]
  rfl

theorem readDigits_pad3 (n : Nat) (h : n < 1000) (rest : Str) :
    readDigits 3 0 (pad3 n ++ rest) = some (n, rest) := by
  simp only [pad3, List.cons_append, List.nil_append, readDigits, digitVal?_digitChar]
  have he : ((0 * 10 + n / 100 % 10) * 10 + n / 10 % 10) * 10 + n % 10 = n := by omega
  rw [he]
  rfl

theorem readDigits_pad4 (n : Nat) (h : n < 10000) (rest : Str) :
    readDigits 4 0 (pad4 n ++ rest) = some (n, rest) := by
  simp only [pad4, List.cons_append, List.nil_append, readDigits, digitVal?_digitChar]
  have he : (((0 * 10 + n / 1000 % 10) * 10 + n / 100 % 10) * 10 + n / 10 % 10) * 10 + n % 10 = n := by
    omega
  rw [he]
  rfl

theorem iso_take_19 (a b c d e f g : Nat) :
    ((pad4 a ++ '-' :: pad2 b ++ '-' :: pad2 c ++
      'T' :: pad2 d ++ ':' :: pad2 e ++ ':' :: pad2 f ++ '.' :: pad3 g ++ ['Z']).take 19) =
    pad4 a ++ '-' :: pad2 b ++ '-' :: pad2 c ++ 'T' :: pad2 d ++ ':' :: pad2 e ++ ':' :: pad2 f := rfl

theorem expect_self (c : Char) (r : Str) : expect c (c :: r) = some r := by
  simp [expect]

theorem parseSec_pad2Z (ss : Nat) (h : ss < 100) :
    parseSec (':' :: (pad2 ss ++ ['Z'])) = some (ss, 0, ['Z']) := by
  simp only [parseSec]
  rw [readDigits_pad2 _ h]
  rfl

theorem parseOffset_Z : parseOffset ['Z'] = some 0 := rfl

theorem parseTimePart_pads (y mo d hh mi ss : Nat) (h1 : hh < 100) (h2 : mi < 100)
    (h3 : ss < 100) :
    parseTimePart y mo d (pad2 hh ++ ':' :: (pad2 mi ++ ':' :: (pad2 ss ++ ['Z']))) =
      js_date_of y mo d hh mi ss 0 0 := by
  rw [parseTimePart]
  rw [readDigits_pad2 _ h1]
  simp only [Option.bind_eq_bind, Option.some_bind]
  rw [expect_self]
  simp only [Option.some_bind]
  rw [readDigits_pad2 _ h2]
  simp only [Option.some_bind]
  rw [parseSec_pad2Z _ h3]
  simp only [Option.some_bind]
  rw [parseOffset_Z]
  simp only [Option.some_bind]

theorem js_parse_date_dash (y : Nat) (h : y < 10000) (rest : Str) :
    js_parse_date (pad4 y ++ '-' :: rest) = parseMonthPart y rest := by
  unfold js_parse_date
  rw [readDigits_pad4 _ h, Option.some_bind]
  rfl

theorem parseMonthPart_dash (y mo : Nat) (h : mo < 100) (rest : Str) :
    parseMonthPart y (pad2 mo ++ '-' :: rest) = parseDayPart y mo rest := by
  unfold parseMonthPart
  rw [readDigits_pad2 _ h, Option.some_bind]
  rfl

theorem parseDayPart_T (y mo d : Nat) (h : d < 100) (rest : Str) :
    parseDayPart y mo (pad2 d ++ 'T' :: rest) = parseTimePart y mo d rest := by
  unfold parseDayPart
  rw [readDigits_pad2 _ h, Option.some_bind]
  rfl

/-- The date-field round-trip: formatting a representable instant at seconds
precision and parsing it back truncates the time value to whole seconds. -/
theorem js_parse_format_line_date (t : Int) (h : date_ok (some t)) :
    js_parse_date (format_line_date (some t)) = some (t - t % 1000) := by
  obtain ⟨hlo, hhi⟩ := h
  have hn_lt : (t / 86400000 + 719528).toNat < 3652425 := by omega
  have hn0 : (0 : Int) ≤ t / 86400000 + 719528 := by omega
  obtain ⟨hday, hy, hm1, hm2, hd1, hd2⟩ :=
    civil_from_day_spec ((t / 86400000 + 719528).toNat) hn_lt
  have hiso : format_line_date (some t) =
      pad4 (civil_from_day ((t / 86400000 + 719528).toNat)).1 ++
      '-' :: pad2 (civil_from_day ((t / 86400000 + 719528).toNat)).2.1 ++
      '-' :: pad2 (civil_from_day ((t / 86400000 + 719528).toNat)).2.2 ++
      'T' :: pad2 ((t % 86400000).toNat / 3600000) ++
      ':' :: pad2 ((t % 86400000).toNat / 60000 % 60) ++
      ':' :: pad2 ((t % 86400000).toNat / 1000 % 60) ++ ['Z'] := by
    show (to_iso_string t).take 19 ++ ['Z'] = _
    rw [show to_iso_string t =
      pad4 (civil_from_day ((t / 86400000 + 719528).toNat)).1 ++
      '-' :: pad2 (civil_from_day ((t / 86400000 + 719528).toNat)).2.1 ++
      '-' :: pad2 (civil_from_day ((t / 86400000 + 719528).toNat)).2.2 ++
      'T' :: pad2 ((t % 86400000).toNat / 3600000) ++
      ':' :: pad2 ((t % 86400000).toNat / 60000 % 60) ++
      ':' :: pad2 ((t % 86400000).toNat / 1000 % 60) ++
      '.' :: pad3 ((t % 86400000).toNat % 1000) ++ ['Z'] from rfl]
    rw [iso_take_19]
  generalize hC : civil_from_day ((t / 86400000 + 719528).toNat) = C
    at hday hy hm1 hm2 hd1 hd2 hiso
  have hm100 : C.2.1 < 100 := by omega
  have hd100 : C.2.2 < 100 := by
    have hdim31 : days_in_month (is_leap C.1) C.2.1 ≤ 31 := by
      unfold days_in_month
      split <;> first | omega | (split <;> omega)
    omega
  have hh24 : (t % 86400000).toNat / 3600000 ≤ 23 := by omega
  have hh100 : (t % 86400000).toNat / 3600000 < 100 := by omega
  have hmi : (t % 86400000).toNat / 60000 % 60 ≤ 59 := by omega
  have hmi100 : (t % 86400000).toNat / 60000 % 60 < 100 := by omega
  have hss : (t % 86400000).toNat / 1000 % 60 ≤ 59 := by omega
  have hss100 : (t % 86400000).toNat / 1000 % 60 < 100 := by omega
  rw [hiso]
  simp only [List.append_assoc, List.cons_append, List.singleton_append]
  rw [js_parse_date_dash _ hy]
  rw [parseMonthPart_dash _ _ hm100]
  rw [parseDayPart_T _ _ _ hd100]
  rw [parseTimePart_pads _ _ _ _ _ _ hh100 hmi100 hss100]
  rw [js_date_of]
  rw [if_pos ⟨hm1, hm2, hd1, hd2, hh24, hmi, hss, by omega⟩]
  congr 1
  rw [hday]
  have hN : (((t / 86400000 + 719528).toNat : Nat) : Int) = t / 86400000 + 719528 :=
    Int.toNat_of_nonneg hn0
  omega

theorem trimStart_cons_not (a : Char) (r : Str) (h : js_ws a = false) :
    trimStart (a :: r) = a :: r := by
  simp [trimStart, h]

theorem trimStart_cons_ws (a : Char) (r : Str) (h : js_ws a = true) :
    trimStart (a :: r) = trimStart r := by
  simp [trimStart, h]

theorem trimStart_length_le (s : Str) : (trimStart s).length ≤ s.length := by
  induction s with
  | nil => exact Nat.le_refl _
  | cons a r ih =>
    by_cases h : js_ws a = true
    · rw [trimStart_cons_ws a r h]
      exact Nat.le_trans ih (Nat.le_succ _)
    · rw [trimStart_cons_not a r (by simpa using h)]

theorem trimStart_fix_head (a : Char) (r : Str) (h : trimStart (a :: r) = a :: r) :
    js_ws a = false := by
  by_contra hb
  have hb' : js_ws a = true := by simpa using hb
  rw [trimStart_cons_ws a r hb'] at h
  have h1 := trimStart_length_le r
  have h2 := congrArg List.length h
  simp at h2
  omega

theorem head_not_ws_of_trimStart_fix (s : Str) (h : trimStart s = s) :
    ∀ x, s.head? = some x → js_ws x = false := by
  cases s with
  | nil => intro x hx; cases hx
  | cons a r =>
    intro x hx
    have hxa : a = x := by simpa using hx
    subst hxa
    exact trimStart_fix_head a r h

theorem trimEnd_fix_of_getLast (s : Str)
    (h : ∀ x, s.getLast? = some x → js_ws x = false) : trimEnd s = s := by
  have h2 : trimStart s.reverse = s.reverse := by
    cases hr : s.reverse with
    | nil => rfl
    | cons a r =>
      refine trimStart_cons_not a r (h a ?_)
      rw [← List.head?_reverse, hr]
      rfl
  unfold trimEnd
  rw [h2, List.reverse_reverse]

theorem getLast_not_ws_of_trimEnd_fix (s : Str) (h : trimEnd s = s) :
    ∀ x, s.getLast? = some x → js_ws x = false := by
  have h2 : trimStart s.reverse = s.reverse := by
    have h3 := congrArg List.reverse h
    unfold trimEnd at h3
    rwa [List.reverse_reverse] at h3
  intro x hx
  rw [← List.head?_reverse] at hx
  exact head_not_ws_of_trimStart_fix _ h2 x hx

theorem trimStart_append_fix (p X : Str) (hp : trimStart p = p) (hne : p ≠ []) :
    trimStart (p ++ X) = p ++ X := by
  obtain ⟨a, r, rfl⟩ := List.exists_cons_of_ne_nil hne
  rw [List.cons_append]
  exact trimStart_cons_not _ _ (trimStart_fix_head a r hp)

theorem trim_fix (s : Str) (h1 : trimStart s = s) (h2 : trimEnd s = s) : trim s = s := by
  unfold trim
  rw [h1, h2]

theorem trim_append_space (p : Str) (h1 : trimStart p = p) (h2 : trimEnd p = p) :
    trim (p ++ [' ']) = p := by
  cases p with
  | nil => decide
  | cons a r =>
    have ha : js_ws a = false := trimStart_fix_head a r h1
    unfold trim
    rw [List.cons_append, trimStart_cons_not _ _ ha, ← List.cons_append]
    unfold trimEnd
    rw [show ((a :: r) ++ [' ']).reverse = ' ' :: (a :: r).reverse by simp]
    rw [trimStart_cons_ws _ _ (by decide)]
    have h2' : trimStart (a :: r).reverse = (a :: r).reverse := by
      have h3 := congrArg List.reverse h2
      unfold trimEnd at h3
      rwa [List.reverse_reverse] at h3
    rw [h2', List.reverse_reverse]

theorem mem_trimStart (x : Char) (s : Str) (hx : js_ws x = false) (h : x ∈ s) :
    x ∈ trimStart s := by
  induction s with
  | nil => cases h
  | cons a r ih =>
    by_cases ha : js_ws a = true
    · rw [trimStart_cons_ws a r ha]
      rcases List.mem_cons.mp h with h1 | h1
      · subst h1; rw [ha] at hx; cases hx
      · exact ih h1
    · rw [trimStart_cons_not a r (by simpa using ha)]
      exact h

theorem mem_trim (x : Char) (s : Str) (hx : js_ws x = false) (h : x ∈ s) : x ∈ trim s := by
  unfold trim trimEnd
  rw [List.mem_reverse]
  refine mem_trimStart x _ hx ?_
  rw [List.mem_reverse]
  exact mem_trimStart x s hx h

theorem indexOf_append_cons (c : Char) (l r : Str) (h : c ∉ l) :
    indexOf? c (l ++ c :: r) = some l.length := by
  induction l with
  | nil => simp [indexOf?]
  | cons a t ih =>
    have hac : ¬(a = c) := fun he => h (he ▸ List.mem_cons_self a t)
    rw [List.cons_append]
    show (if a = c then some 0 else (indexOf? c (t ++ c :: r)).map (· + 1)) = _
    rw [if_neg hac, ih (fun hm => h (List.mem_cons_of_mem a hm))]
    rfl

theorem digitChar_mod (k : Nat) : digitChar k = digitChar (k % 10) := by
  unfold digitChar
  congr 1
  omega

theorem digitChar_facts (k : Nat) :
    js_ws (digitChar k) = false ∧ digitChar k ≠ ' ' ∧ digitChar k ≠ '#' ∧
    digitChar k ≠ '\n' ∧ digitChar k ≠ '%' := by
  have hball : ∀ j < 10, js_ws (digitChar j) = false ∧ digitChar j ≠ ' ' ∧
      digitChar j ≠ '#' ∧ digitChar j ≠ '\n' ∧ digitChar j ≠ '%' := by decide
  rw [digitChar_mod]
  exact hball (k % 10) (Nat.mod_lt _ (by omega))

theorem pads_chars (y mo d hh mi ss : Nat) (x : Char)
    (hx : x ∈ pad4 y ++ '-' :: pad2 mo ++ '-' :: pad2 d ++ 'T' :: pad2 hh ++
      ':' :: pad2 mi ++ ':' :: pad2 ss ++ ['Z']) :
    x = '-' ∨ x = 'T' ∨ x = ':' ∨ x = 'Z' ∨ ∃ k, x = digitChar k := by
  simp only [pad4, pad2, List.mem_append, List.mem_cons, List.mem_singleton,
    List.not_mem_nil, or_false, false_or] at hx
  rcases hx with ((((((h|h|h|h)|h|h|h)|h|h|h)|h|h|h)|h|h|h)|h|h|h)|h <;>
    first
      | exact Or.inl h
      | exact Or.inr (Or.inl h)
      | exact Or.inr (Or.inr (Or.inl h))
      | exact Or.inr (Or.inr (Or.inr (Or.inl h)))
      | exact Or.inr (Or.inr (Or.inr (Or.inr ⟨_, h⟩)))

theorem format_line_date_shape (t : Int) (h : date_ok (some t)) :
    ∃ y mo d hh mi ss : Nat, y < 10000 ∧ mo < 100 ∧ d < 100 ∧ hh < 100 ∧ mi < 100 ∧
      ss < 100 ∧
      format_line_date (some t) =
        pad4 y ++ '-' :: pad2 mo ++ '-' :: pad2 d ++ 'T' :: pad2 hh ++ ':' :: pad2 mi ++
          ':' :: pad2 ss ++ ['Z'] := by
  obtain ⟨hlo, hhi⟩ := h
  have hn_lt : (t / 86400000 + 719528).toNat < 3652425 := by omega
  obtain ⟨hday, hy, hm1, hm2, hd1, hd2⟩ :=
    civil_from_day_spec ((t / 86400000 + 719528).toNat) hn_lt
  have hdim : days_in_month (is_leap (civil_from_day ((t / 86400000 + 719528).toNat)).1)
      (civil_from_day ((t / 86400000 + 719528).toNat)).2.1 ≤ 31 := by
    unfold days_in_month
    split <;> first | omega | (split <;> omega)
  refine ⟨(civil_from_day ((t / 86400000 + 719528).toNat)).1,
          (civil_from_day ((t / 86400000 + 719528).toNat)).2.1,
          (civil_from_day ((t / 86400000 + 719528).toNat)).2.2,
          (t % 86400000).toNat / 3600000,
          (t % 86400000).toNat / 60000 % 60,
          (t % 86400000).toNat / 1000 % 60,
          hy, by omega, by omega, by omega, by omega, by omega, ?_⟩
  show (to_iso_string t).take 19 ++ ['Z'] = _
  rw [show to_iso_string t =
    pad4 (civil_from_day ((t / 86400000 + 719528).toNat)).1 ++
    '-' :: pad2 (civil_from_day ((t / 86400000 + 719528).toNat)).2.1 ++
    '-' :: pad2 (civil_from_day ((t / 86400000 + 719528).toNat)).2.2 ++
    'T' :: pad2 ((t % 86400000).toNat / 3600000) ++
    ':' :: pad2 ((t % 86400000).toNat / 60000 % 60) ++
    ':' :: pad2 ((t % 86400000).toNat / 1000 % 60) ++
    '.' :: pad3 ((t % 86400000).toNat % 1000) ++ ['Z'] from rfl]
  rw [iso_take_19]

theorem escapeNote_cons (a : Char) (r : Str) :
    escapeNote (a :: r) = (if a = '\n' then ['\\', 'n'] else [a]) ++ escapeNote r := by
  by_cases h : a = '\n'
  · rw [if_pos h]
    subst h
    rfl
  · rw [if_neg h]
    simp [escapeNote, h]

theorem escapeNote_ne_nil (s : Str) (h : s ≠ []) : escapeNote s ≠ [] := by
  obtain ⟨a, r, rfl⟩ := List.exists_cons_of_ne_nil h
  rw [escapeNote_cons]
  by_cases ha : a = '\n' <;> simp [ha]

theorem escapeNote_no_nl (s : Str) : '\n' ∉ escapeNote s := by
  induction s with
  | nil => intro hm; cases hm
  | cons a r ih =>
    rw [escapeNote_cons]
    intro hm
    rcases List.mem_append.mp hm with hm | hm
    · by_cases h : a = '\n'
      · rw [if_pos h] at hm
        exact absurd hm (by decide)
      · rw [if_neg h] at hm
        rcases List.mem_cons.mp hm with he | he
        · exact h he.symm
        · cases he
    · exact ih hm

theorem escapeNote_trimStart_fix (s : Str) (h : trimStart s = s) :
    trimStart (escapeNote s) = escapeNote s := by
  cases s with
  | nil => rfl
  | cons a r =>
    have ha : js_ws a = false := trimStart_fix_head a r h
    have hane : a ≠ '\n' := fun he => absurd (he ▸ ha) (by decide)
    rw [escapeNote_cons, if_neg hane, List.singleton_append]
    exact trimStart_cons_not _ _ ha

theorem escapeNote_getLast_ws (s : Str)
    (h : ∀ x, s.getLast? = some x → js_ws x = false) :
    ∀ x, (escapeNote s).getLast? = some x → js_ws x = false := by
  induction s with
  | nil => intro x hx; cases hx
  | cons a r ih =>
    intro x hx
    rw [escapeNote_cons] at hx
    by_cases hr : r = []
    · subst hr
      by_cases ha : a = '\n'
      · rw [if_pos ha] at hx
        have hxn : x = 'n' := by simpa [escapeNote] using hx.symm
        subst hxn
        decide
      · rw [if_neg ha] at hx
        have hxa : x = a := by simpa [escapeNote] using hx.symm
        subst hxa
        exact h x (by simp)
    · rw [List.getLast?_append_of_ne_nil _ (escapeNote_ne_nil r hr)] at hx
      refine ih ?_ x hx
      intro y hy
      refine h y ?_
      rw [show a :: r = [a] ++ r from rfl, List.getLast?_append_of_ne_nil _ hr]
      exact hy

theorem unescapeNote_escapeNote (s : Str) (h : escClash s = false) :
    unescapeNote (escapeNote s) = s := by
  induction s with
  | nil => rfl
  | cons a r ih =>
    by_cases hr : r = []
    · subst hr
      by_cases ha : a = '\n'
      · subst ha
        decide
      · rw [escapeNote_cons, if_neg ha]
        show unescapeNote [a] = [a]
        rfl
    · obtain ⟨b, rr, rfl⟩ := List.exists_cons_of_ne_nil hr
      simp only [escClash, Bool.or_eq_false_iff, Bool.and_eq_false_iff,
        decide_eq_false_iff_not] at h
      obtain ⟨h1, h2⟩ := h
      by_cases ha : a = '\n'
      · subst ha
        rw [escapeNote_cons, if_pos rfl, List.cons_append, List.cons_append,
          List.nil_append]
        rw [show unescapeNote ('\\' :: 'n' :: escapeNote (b :: rr)) =
          '\n' :: unescapeNote (escapeNote (b :: rr)) from rfl]
        rw [ih h2]
      · rw [escapeNote_cons, if_neg ha, List.singleton_append]
        obtain ⟨d, es, hde⟩ :=
          List.exists_cons_of_ne_nil (escapeNote_ne_nil (b :: rr) (by simp))
        have hnot : ¬(a = '\\' ∧ d = 'n') := by
          rintro ⟨ha2, hd2⟩
          rw [escapeNote_cons] at hde
          by_cases hb : b = '\n'
          · rw [if_pos hb] at hde
            have hdbs : d = '\\' := by
              have h3 := congrArg List.head? hde
              simpa using h3.symm
            rw [hd2] at hdbs
            exact absurd hdbs (by decide)
          · rw [if_neg hb] at hde
            have hdb : d = b := by
              have h3 := congrArg List.head? hde
              simpa using h3.symm
            rcases h1 with hA | hB
            · exact hA ha2
            · exact hB (by rw [← hdb, hd2])
        rw [hde]
        rw [show unescapeNote (a :: d :: es) =
          if a = '\\' ∧ d = 'n' then '\n' :: unescapeNote es
          else a :: unescapeNote (d :: es) from rfl]
        rw [if_neg hnot, ← hde, ih h2]

theorem parse_line_hash_skeleton (line : Str) (i j k : Nat)
    (h1 : indexOf? ' ' line = some i)
    (h2 : indexOf? ' ' (trimStart (line.drop i)) = some j)
    (h3 : indexOf? '#' (trimStart ((trimStart (line.drop i)).drop j)) = some k) :
    Change.parse_line line =
      .ok { name := line.take i,
            note := unescapeNote
              (trim ((trimStart ((trimStart (line.drop i)).drop j)).drop (k + 1))),
            date := js_parse_date ((trimStart (line.drop i)).take j),
            planner := trim ((trimStart ((trimStart (line.drop i)).drop j)).take k) } := by
  simp only [Change.parse_line, h1, h2, h3]

theorem parse_line_format_line (c : Change) (h : WfChange c) :
    Change.parse_line (Change.format_line c) = .ok (truncChange c) := by
  obtain ⟨nm, nt, dt, pl⟩ := c
  obtain ⟨hns, hnn, hnp, hdok, hph, hpn, hpts, hpte, hnts, hnte, hcl⟩ := h
  cases dt with
  | none => simp [date_ok] at hdok
  | some t =>
    obtain ⟨y, mo, d, hh, mi, ss, hy, hmo, hdd, hhh, hmi, hss, hF⟩ :=
      format_line_date_shape t hdok
    have hparse := js_parse_format_line_date t hdok
    have hline : Change.format_line ⟨nm, nt, some t, pl⟩ =
        nm ++ ' ' :: (format_line_date (some t) ++
          ' ' :: (pl ++ ' ' :: '#' :: ' ' :: escapeNote nt)) := by
      unfold Change.format_line
      simp only [List.append_assoc, List.cons_append]
    have hFhead : ∃ tail, format_line_date (some t) = digitChar (y / 1000) :: tail := by
      rw [hF]
      exact ⟨_, rfl⟩
    have hFspace : ' ' ∉ format_line_date (some t) := by
      intro hm
      rw [hF] at hm
      rcases pads_chars y mo d hh mi ss ' ' hm with h|h|h|h|⟨k, hk⟩
      · exact absurd h (by decide)
      · exact absurd h (by decide)
      · exact absurd h (by decide)
      · exact absurd h (by decide)
      · exact (digitChar_facts k).2.1 hk.symm
    have hi1 : indexOf? ' ' (Change.format_line ⟨nm, nt, some t, pl⟩) = some nm.length := by
      rw [hline]
      exact indexOf_append_cons _ _ _ hns
    have htake1 : (Change.format_line ⟨nm, nt, some t, pl⟩).take nm.length = nm := by
      rw [hline]
      exact List.take_left _ _
    have hdrop1 : trimStart ((Change.format_line ⟨nm, nt, some t, pl⟩).drop nm.length) =
        format_line_date (some t) ++ ' ' :: (pl ++ ' ' :: '#' :: ' ' :: escapeNote nt) := by
      rw [hline, List.drop_left]
      rw [trimStart_cons_ws _ _ (by decide)]
      obtain ⟨tail, htail⟩ := hFhead
      rw [htail, List.cons_append]
      exact trimStart_cons_not _ _ (digitChar_facts _).1
    have hi2 : indexOf? ' '
        (trimStart ((Change.format_line ⟨nm, nt, some t, pl⟩).drop nm.length)) =
        some (format_line_date (some t)).length := by
      rw [hdrop1]
      exact indexOf_append_cons _ _ _ hFspace
    have htake2 : (trimStart ((Change.format_line ⟨nm, nt, some t, pl⟩).drop
        nm.length)).take (format_line_date (some t)).length = format_line_date (some t) := by
      rw [hdrop1]
      exact List.take_left _ _
    have hdate : js_parse_date ((trimStart ((Change.format_line
        ⟨nm, nt, some t, pl⟩).drop nm.length)).take (format_line_date (some t)).length) =
        some (t - t % 1000) := by
      rw [htake2]
      exact hparse
    have hdrop2 : trimStart ((trimStart ((Change.format_line
        ⟨nm, nt, some t, pl⟩).drop nm.length)).drop (format_line_date (some t)).length) =
        trimStart (pl ++ ' ' :: '#' :: ' ' :: escapeNote nt) := by
      rw [hdrop1, List.drop_left]
      rw [trimStart_cons_ws _ _ (by decide)]
    have htrimnote : trim (' ' :: escapeNote nt) = escapeNote nt := by
      unfold trim
      rw [trimStart_cons_ws _ _ (by decide)]
      rw [escapeNote_trimStart_fix _ hnts]
      exact trimEnd_fix_of_getLast _
        (escapeNote_getLast_ws _ (getLast_not_ws_of_trimEnd_fix _ hnte))
    have hfinal : truncChange ⟨nm, nt, some t, pl⟩ =
        (⟨nm, nt, some (t - t % 1000), pl⟩ : Change) := by
      simp [truncChange, truncate_ms]
    cases pl with
    | nil =>
      have hB : trimStart (([] : Str) ++ ' ' :: '#' :: ' ' :: escapeNote nt) =
          '#' :: ' ' :: escapeNote nt := by
        rw [List.nil_append, trimStart_cons_ws _ _ (by decide)]
        exact trimStart_cons_not _ _ (by decide)
      have hi3 : indexOf? '#' (trimStart ((trimStart ((Change.format_line
          ⟨nm, nt, some t, []⟩).drop nm.length)).drop
          (format_line_date (some t)).length)) = some 0 := by
        rw [hdrop2, hB]
        simp [indexOf?]
      have hplanner : trim ((trimStart ((trimStart ((Change.format_line
          ⟨nm, nt, some t, []⟩).drop nm.length)).drop
          (format_line_date (some t)).length)).take 0) = ([] : Str) := by
        rw [hdrop2, hB]
        rfl
      have hnote : unescapeNote (trim ((trimStart ((trimStart ((Change.format_line
          ⟨nm, nt, some t, []⟩).drop nm.length)).drop
          (format_line_date (some t)).length)).drop (0 + 1))) = nt := by
        rw [hdrop2, hB]
        rw [show ('#' :: ' ' :: escapeNote nt).drop (0 + 1) = ' ' :: escapeNote nt from rfl]
        rw [htrimnote]
        exact unescapeNote_escapeNote nt hcl
      rw [parse_line_hash_skeleton _ _ _ _ hi1 hi2 hi3]
      rw [htake1, hdate, hplanner, hnote, hfinal]
    | cons pa pr =>
      have hplns : trimStart ((pa :: pr) ++ ' ' :: '#' :: ' ' :: escapeNote nt) =
          (pa :: pr) ++ ' ' :: '#' :: ' ' :: escapeNote nt :=
        trimStart_append_fix _ _ hpts (by simp)
      have hR2a : (pa :: pr) ++ ' ' :: '#' :: ' ' :: escapeNote nt =
          ((pa :: pr) ++ [' ']) ++ '#' :: ' ' :: escapeNote nt := by simp
      have hnotin : '#' ∉ (pa :: pr) ++ [' '] := by
        intro hm
        rcases List.mem_append.mp hm with hm | hm
        · exact hph hm
        · exact absurd (List.mem_singleton.mp hm) (by decide)
      have hi3 : indexOf? '#' (trimStart ((trimStart ((Change.format_line
          ⟨nm, nt, some t, pa :: pr⟩).drop nm.length)).drop
          (format_line_date (some t)).length)) = some ((pa :: pr) ++ [' ']).length := by
        rw [hdrop2, hplns, hR2a]
        exact indexOf_append_cons _ _ _ hnotin
      have hplanner : trim ((trimStart ((trimStart ((Change.format_line
          ⟨nm, nt, some t, pa :: pr⟩).drop nm.length)).drop
          (format_line_date (some t)).length)).take ((pa :: pr) ++ [' ']).length) =
          pa :: pr := by
        rw [hdrop2, hplns, hR2a, List.take_left]
        exact trim_append_space _ hpts hpte
      have hnote : unescapeNote (trim ((trimStart ((trimStart ((Change.format_line
          ⟨nm, nt, some t, pa :: pr⟩).drop nm.length)).drop
          (format_line_date (some t)).length)).drop (((pa :: pr) ++ [' ']).length + 1))) =
          nt := by
        rw [hdrop2, hplns]
        rw [show (pa :: pr) ++ ' ' :: '#' :: ' ' :: escapeNote nt =
          (((pa :: pr) ++ [' ']) ++ ['#']) ++ ' ' :: escapeNote nt by simp]
        rw [show ((pa :: pr) ++ [' ']).length + 1 =
          (((pa :: pr) ++ [' ']) ++ ['#']).length by simp]
        rw [List.drop_left]
        rw [htrimnote]
        exact unescapeNote_escapeNote nt hcl
      rw [parse_line_hash_skeleton _ _ _ _ hi1 hi2 hi3]
      rw [htake1, hdate, hplanner, hnote, hfinal]

theorem splitNl_cons_not (c : Char) (r : Str) (hc : ¬(c = '\n')) :
    splitNl (c :: r) = match splitNl r with
      | [] => [[c]]
      | l :: ls => (c :: l) :: ls := by
  show (if c = '\n' then [] :: splitNl r else _) = _
  rw [if_neg hc]

theorem splitNl_append_cons_nl (l X : Str) (h : '\n' ∉ l) :
    splitNl (l ++ '\n' :: X) = l :: splitNl X := by
  induction l with
  | nil =>
    show (if '\n' = '\n' then [] :: splitNl X else _) = [] :: splitNl X
    rw [if_pos rfl]
  | cons c r ih =>
    have hc : ¬(c = '\n') := fun he => h (he ▸ List.mem_cons_self c r)
    have hr := ih (fun hm => h (List.mem_cons_of_mem c hm))
    rw [List.cons_append, splitNl_cons_not c _ hc, hr]

theorem splitNl_joinNl (L : List Str) (hne : L ≠ []) (h : ∀ l ∈ L, '\n' ∉ l) :
    splitNl (joinNl L ++ ['\n']) = L ++ [[]] := by
  induction L with
  | nil => exact absurd rfl hne
  | cons l ls ih =>
    cases ls with
    | nil =>
      rw [show joinNl [l] = l from rfl]
      rw [splitNl_append_cons_nl l [] (h l (List.mem_cons_self l []))]
      rfl
    | cons m ms =>
      rw [show joinNl (l :: m :: ms) = l ++ '\n' :: joinNl (m :: ms) from rfl]
      rw [List.append_assoc, List.cons_append]
      rw [splitNl_append_cons_nl l _ (h l (List.mem_cons_self l _))]
      rw [ih (by simp) (fun x hx => h x (List.mem_cons_of_mem l hx))]
      rfl

theorem format_line_no_nl (c : Change) (h : WfChange c) :
    '\n' ∉ Change.format_line c := by
  obtain ⟨nm, nt, dt, pl⟩ := c
  obtain ⟨hns, hnn, hnp, hdok, hph, hpn, hpts, hpte, hnts, hnte, hcl⟩ := h
  cases dt with
  | none => simp [date_ok] at hdok
  | some t =>
    obtain ⟨y, mo, d, hh, mi, ss, hy, hmo, hdd, hhh, hmi, hss, hF⟩ :=
      format_line_date_shape t hdok
    intro hm
    rw [show Change.format_line ⟨nm, nt, some t, pl⟩ =
      nm ++ ' ' :: (format_line_date (some t) ++
        ' ' :: (pl ++ ' ' :: '#' :: ' ' :: escapeNote nt)) from by
        unfold Change.format_line
        simp only [List.append_assoc, List.cons_append]] at hm
    rcases List.mem_append.mp hm with h1 | h1
    · exact hnn h1
    rcases List.mem_cons.mp h1 with h2 | h2
    · exact absurd h2 (by decide)
    rcases List.mem_append.mp h2 with h3 | h3
    · rw [hF] at h3
      rcases pads_chars y mo d hh mi ss '\n' h3 with hq|hq|hq|hq|⟨k, hk⟩
      · exact absurd hq (by decide)
      · exact absurd hq (by decide)
      · exact absurd hq (by decide)
      · exact absurd hq (by decide)
      · exact (digitChar_facts k).2.2.2.1 hk.symm
    rcases List.mem_cons.mp h3 with h4 | h4
    · exact absurd h4 (by decide)
    rcases List.mem_append.mp h4 with h5 | h5
    · exact hpn h5
    rcases List.mem_cons.mp h5 with h6 | h6
    · exact absurd h6 (by decide)
    rcases List.mem_cons.mp h6 with h7 | h7
    · exact absurd h7 (by decide)
    rcases List.mem_cons.mp h7 with h8 | h8
    · exact absurd h8 (by decide)
    · exact escapeNote_no_nl nt h8

theorem format_line_percent (c : Change) (h : c.name.head? ≠ some '%') :
    startsWithPercent (Change.format_line c) = false := by
  unfold Change.format_line
  cases hn : c.name with
  | nil => rfl
  | cons a r =>
    rw [List.cons_append]
    show decide (a = '%') = false
    rw [hn] at h
    have ha : ¬(a = '%') := fun he => h (by rw [he]; rfl)
    exact decide_eq_false ha

theorem hash_mem_format_line (c : Change) : '#' ∈ Change.format_line c := by
  unfold Change.format_line
  simp

theorem trim_format_line_ne_nil (c : Change) :
    (trim (Change.format_line c)).isEmpty = false := by
  have hm : '#' ∈ trim (Change.format_line c) :=
    mem_trim '#' _ (by decide) (hash_mem_format_line c)
  have hne : trim (Change.format_line c) ≠ [] := List.ne_nil_of_mem hm
  cases he : trim (Change.format_line c) with
  | nil => exact absurd he hne
  | cons x xs => rfl

theorem filter_percent_tail (cs : List Change) (h : ∀ c ∈ cs, WfChange c) :
    (cs.map Change.format_line ++ [[]]).filter startsWithPercent = [] := by
  induction cs with
  | nil => rfl
  | cons c cs ih =>
    rw [List.map_cons, List.cons_append, List.filter_cons]
    rw [format_line_percent c (h c (List.mem_cons_self c cs)).2.2.1]
    exact ih (fun x hx => h x (List.mem_cons_of_mem c hx))

theorem filter_not_percent_tail (cs : List Change) (h : ∀ c ∈ cs, WfChange c) :
    (cs.map Change.format_line ++ [[]]).filter (fun l => !startsWithPercent l) =
      cs.map Change.format_line ++ [[]] := by
  induction cs with
  | nil => rfl
  | cons c cs ih =>
    rw [List.map_cons, List.cons_append, List.filter_cons]
    rw [format_line_percent c (h c (List.mem_cons_self c cs)).2.2.1]
    rw [show (!false) = true from rfl, if_pos rfl]
    rw [ih (fun x hx => h x (List.mem_cons_of_mem c hx))]

theorem filter_trim_tail (cs : List Change) :
    (cs.map Change.format_line ++ [[]]).filter (fun l => !(trim l).isEmpty) =
      cs.map Change.format_line := by
  induction cs with
  | nil => rfl
  | cons c cs ih =>
    rw [List.map_cons, List.cons_append, List.filter_cons]
    rw [trim_format_line_ne_nil c]
    rw [show (!false) = true from rfl, if_pos rfl]
    rw [ih]

theorem parse_changes_map (cs : List Change) (h : ∀ c ∈ cs, WfChange c) :
    parse_changes (cs.map Change.format_line) = .ok (cs.map truncChange) := by
  induction cs with
  | nil => rfl
  | cons c cs ih =>
    have hpl := parse_line_format_line c (h c (List.mem_cons_self c cs))
    have ih' := ih (fun x hx => h x (List.mem_cons_of_mem c hx))
    rw [List.map_cons]
    rw [show parse_changes (Change.format_line c :: cs.map Change.format_line) =
      match Change.parse_line (Change.format_line c) with
      | .error e => .error e
      | .ok c2 => (parse_changes (cs.map Change.format_line)).map (c2 :: ·) from rfl]
    rw [hpl, ih']
    rfl

/-- C4: parsing a formatted plan document recovers the plan up to
millisecond truncation of the change dates. -/
theorem claim4_plan_roundtrip (p : Plan) (h : WfPlan p) :
    Plan.parse (Plan.format p) = .ok (truncPlan p) := by
  obtain ⟨proj, cs⟩ := p
  obtain ⟨hpnl, hpte, hwf⟩ := h
  have hfmt : Plan.format ⟨proj, cs⟩ =
      joinNl (version_marker :: ("%project=".data ++ proj) :: [] ::
        cs.map Change.format_line) ++ ['\n'] := by
    unfold Plan.format
    rfl
  have hLnl : ∀ l ∈ (version_marker :: ("%project=".data ++ proj) :: [] ::
      cs.map Change.format_line), '\n' ∉ l := by
    intro l hl
    rcases List.mem_cons.mp hl with rfl | hl
    · decide
    rcases List.mem_cons.mp hl with rfl | hl
    · intro hm
      rcases List.mem_append.mp hm with hm | hm
      · exact absurd hm (by decide)
      · exact hpnl hm
    rcases List.mem_cons.mp hl with rfl | hl
    · intro hm
      cases hm
    · obtain ⟨c, hc, rfl⟩ := List.mem_map.mp hl
      exact format_line_no_nl c (hwf c hc)
  have hlines : splitNl (Plan.format ⟨proj, cs⟩) =
      version_marker :: ("%project=".data ++ proj) :: [] ::
        (cs.map Change.format_line ++ [[]]) := by
    rw [hfmt, splitNl_joinNl _ (by simp) hLnl]
    rfl
  have hfilt1 : List.filter startsWithPercent
      (version_marker :: ("%project=".data ++ proj) :: [] ::
        (cs.map Change.format_line ++ [[]])) =
      [version_marker, "%project=".data ++ proj] := by
    rw [List.filter_cons, List.filter_cons, List.filter_cons]
    rw [show startsWithPercent version_marker = true from rfl]
    rw [show startsWithPercent ("%project=".data ++ proj) = true from rfl]
    rw [show startsWithPercent ([] : Str) = false from rfl]
    rw [if_pos rfl, if_pos rfl, if_neg (by decide)]
    rw [filter_percent_tail cs hwf]
  have hfilt2 : List.filter (fun l => !startsWithPercent l)
      (version_marker :: ("%project=".data ++ proj) :: [] ::
        (cs.map Change.format_line ++ [[]])) =
      [] :: (cs.map Change.format_line ++ [[]]) := by
    rw [List.filter_cons, List.filter_cons, List.filter_cons]
    rw [show (!startsWithPercent version_marker) = false from rfl]
    rw [show (!startsWithPercent ("%project=".data ++ proj)) = false from rfl]
    rw [show (!startsWithPercent ([] : Str)) = true from rfl]
    rw [if_neg (by decide), if_neg (by decide), if_pos rfl]
    rw [filter_not_percent_tail cs hwf]
  have hfilt3 : List.filter (fun l => !(trim l).isEmpty)
      ([] :: (cs.map Change.format_line ++ [[]])) = cs.map Change.format_line := by
    rw [List.filter_cons]
    rw [show (!(trim ([] : Str)).isEmpty) = false from rfl]
    rw [if_neg (by decide)]
    exact filter_trim_tail cs
  have hp1 : trim (List.drop 1 ("%project=".data ++ proj)) = "project=".data ++ proj := by
    show trim ("project=".data ++ proj) = "project=".data ++ proj
    refine trim_fix _ (trimStart_append_fix _ _ (by decide) (by decide)) ?_
    refine trimEnd_fix_of_getLast _ ?_
    intro x hx
    by_cases hpr : proj = []
    · subst hpr
      rw [List.append_nil] at hx
      have h8 : (("project=".data : Str)).getLast? = some '=' := by decide
      have h9 := h8.symm.trans hx
      injection h9 with h9
      rw [← h9]
      decide
    · rw [List.getLast?_append_of_ne_nil _ hpr] at hx
      exact getLast_not_ws_of_trimEnd_fix proj hpte x hx
  have hp2 : indexOf? '=' ("project=".data ++ proj) = some 7 := by
    rw [show ("project=".data ++ proj : Str) = "project".data ++ '=' :: proj from rfl]
    rw [indexOf_append_cons '=' _ _ (by decide)]
    rfl
  have hp3 : ("project=".data ++ proj).take 7 = "project".data := rfl
  have hp4 : ("project=".data ++ proj).drop (7 + 1) = proj := rfl
  have hpc := parse_changes_map cs hwf
  simp only [Plan.parse, hlines, List.headD_cons]
  rw [if_neg (fun hne : version_marker ≠ version_marker => hne rfl)]
  rw [hfilt1, hfilt2, hfilt3, hpc]
  simp only [List.map_cons, List.map_nil, hp1, hp2, hp3, hp4]
  rw [show ∀ (a b : Str × Str), ([a, b] : List (Str × Str)).reverse = [b, a] from
    fun a b => rfl]
  rw [List.find?_cons_of_pos _ (by rfl)]
  rw [Option.map_some', Option.getD_some]
  rfl

/-- C4 (witness): the round-trip on a concrete two-change plan. -/
theorem claim4_witness : Plan.parse (Plan.format wit_plan) = .ok (truncPlan wit_plan) :=
  claim4_plan_roundtrip wit_plan (by decide)

end Quitch
